/-
Verification of the Daily Reading Companion core: the paragraph-preserving
text chunker, the text normalizer, and the per-book progress tracker.

The embedding follows the Python source:
  * src/models/core.py        (BookProgress, BookChunk)
  * src/services/progress.py  (ProgressService)
  * src/processors/chunker.py (TextChunker)
  * src/utils.py              (count_words, clean_text)

Text is modelled as `List Char` (Python `str` is a sequence of Unicode code
points).  Python floats (reading times) are modelled as rationals; no claim
under scrutiny depends on floating-point rounding.  Non-negative Python ints
are modelled as `Nat`.
-/
import Mathlib

/-! ## Progress tracker (src/models/core.py, src/services/progress.py) -/

/-- Progress tracking for a book, from `BookProgress` in src/models/core.py.
All counters are non-negative integers in every state the service produces. -/
structure BookProgress where
  current_chunk : Nat := 0
  total_chunks : Nat := 0
  reading_days : Nat := 0
  completed : Bool := false
deriving DecidableEq, Repr

/-- Fresh zero-valued record: the dataclass defaults, also produced by
`ProgressService.get_book_progress` for a book never seen before. -/
def BookProgress.fresh : BookProgress := {}

/-- Reading progress as a percentage, from `BookProgress.progress_percentage`:
`0.0` when `total_chunks == 0`, else `current_chunk / total_chunks * 100`. -/
def BookProgress.progress_percentage (p : BookProgress) : ℚ :=
  if p.total_chunks = 0 then 0
  else ((p.current_chunk : ℚ) / (p.total_chunks : ℚ)) * 100

/-- Mark the current chunk as read and advance, from
`BookProgress.mark_chunk_read`: when `current_chunk < total_chunks`, increment
`current_chunk` and `reading_days`, and set `completed` once
`current_chunk >= total_chunks`; otherwise leave the record unchanged. -/
def BookProgress.mark_chunk_read (p : BookProgress) : BookProgress :=
  if p.current_chunk < p.total_chunks then
    let c := p.current_chunk + 1
    { p with
      current_chunk := c
      reading_days := p.reading_days + 1
      completed := if p.total_chunks ≤ c then true else p.completed }
  else p

/-- Check whether reading is finished, from `BookProgress.is_finished`. -/
def BookProgress.is_finished (p : BookProgress) : Bool :=
  p.completed || decide (p.total_chunks ≤ p.current_chunk)

/-- Effect of `ProgressService.update_book_progress` on one book's record:
set `total_chunks` to the given value, then call `mark_chunk_read`.  The
service reads the record with `get_book_progress` (defaulting missing fields
to the fresh record), mutates it this way, and saves it back. -/
def BookProgress.update_book_progress (p : BookProgress) (total_chunks : Nat) :
    BookProgress :=
  BookProgress.mark_chunk_read { p with total_chunks := total_chunks }

/-- Effect of `ProgressService.set_book_total_chunks` on one book's record:
overwrite `total_chunks`, leaving every other field unchanged. -/
def BookProgress.set_book_total_chunks (p : BookProgress) (n : Nat) :
    BookProgress :=
  { p with total_chunks := n }

/-- Progress store kept in progress.json, keyed by book filename.  Missing
books read back as the fresh record (`dict.get` defaults in
`get_book_progress`), so the store is modelled as a total map. -/
def ProgressStore := String → BookProgress

/-- Store state before any book has been tracked. -/
def ProgressStore.empty : ProgressStore := fun _ => BookProgress.fresh

/-- Read a book's progress, from `ProgressService.get_book_progress`. -/
def ProgressStore.get_book_progress (s : ProgressStore) (b : String) :
    BookProgress := s b

/-- Store-level `ProgressService.update_book_progress`: returns the updated
store together with the returned snapshot. -/
def ProgressStore.update_book_progress (s : ProgressStore) (b : String)
    (total_chunks : Nat) : ProgressStore × BookProgress :=
  let q := (s b).update_book_progress total_chunks
  (fun b' => if b' = b then q else s b', q)

/-- Store-level `ProgressService.set_book_total_chunks`. -/
def ProgressStore.set_book_total_chunks (s : ProgressStore) (b : String)
    (n : Nat) : ProgressStore :=
  fun b' => if b' = b then (s b).set_book_total_chunks n else s b'

/-- One tracker operation on a single book, as the claims quantify over
sequences of `update_book_progress` and `set_book_total_chunks` calls. -/
inductive TrackerOp where
  | advance (totalUnits : Nat)
  | setTotal (totalUnits : Nat)
deriving DecidableEq, Repr

/-- Apply one tracker operation to a store at a given book key. -/
def TrackerOp.apply (s : ProgressStore) (b : String) : TrackerOp → ProgressStore
  | .advance n => (s.update_book_progress b n).1
  | .setTotal n => s.set_book_total_chunks b n

/-- Run a sequence of tracker operations against one book. -/
def runOps (s : ProgressStore) (b : String) (ops : List TrackerOp) :
    ProgressStore :=
  ops.foldl (fun st op => op.apply st b) s

/-- Record-level run of a sequence of `advance` calls. -/
def runAdvance (p : BookProgress) (ns : List Nat) : BookProgress :=
  ns.foldl BookProgress.update_book_progress p

/-- Record-level run of a sequence of tracker operations. -/
def runOpsRec (p : BookProgress) (ops : List TrackerOp) : BookProgress :=
  ops.foldl
    (fun q op =>
      match op with
      | .advance n => q.update_book_progress n
      | .setTotal n => q.set_book_total_chunks n) p

theorem TrackerOp.apply_at (s : ProgressStore) (b : String) (op : TrackerOp) :
    op.apply s b b =
      (match op with
       | .advance n => (s b).update_book_progress n
       | .setTotal n => (s b).set_book_total_chunks n) := by
  cases op <;>
    simp [TrackerOp.apply, ProgressStore.update_book_progress,
      ProgressStore.set_book_total_chunks]

theorem runOps_at (b : String) (ops : List TrackerOp) (s : ProgressStore) :
    runOps s b ops b = runOpsRec (s b) ops := by
  induction ops generalizing s with
  | nil => rfl
  | cons op ops ih =>
      simp only [runOps, List.foldl_cons, runOpsRec]
      have h := ih (op.apply s b)
      simp only [runOps, runOpsRec] at h
      rw [h, TrackerOp.apply_at]

theorem runOpsRec_advance (ns : List Nat) (p : BookProgress) :
    runOpsRec p (ns.map TrackerOp.advance) = runAdvance p ns := by
  induction ns generalizing p with
  | nil => rfl
  | cons n ns ih =>
      simp only [List.map_cons, runOpsRec, List.foldl_cons, runAdvance] at *
      exact ih _

theorem runOps_advance_eq_runAdvance (b : String) (ns : List Nat)
    (s : ProgressStore) :
    runOps s b (ns.map TrackerOp.advance) b = runAdvance (s b) ns := by
  rw [runOps_at, runOpsRec_advance]

/-! ## Progress tracker lemmas -/

theorem update_current_mono (p : BookProgress) (n : Nat) :
    p.current_chunk ≤ (p.update_book_progress n).current_chunk := by
  simp only [BookProgress.update_book_progress, BookProgress.mark_chunk_read]
  split <;> simp

theorem update_current_le_total (p : BookProgress) (n : Nat)
    (h : p.current_chunk ≤ n) :
    (p.update_book_progress n).current_chunk ≤
      (p.update_book_progress n).total_chunks ∧
    (p.update_book_progress n).total_chunks = n := by
  simp only [BookProgress.update_book_progress, BookProgress.mark_chunk_read]
  split <;> simp_all <;> omega

theorem runAdvance_append (p : BookProgress) (ns : List Nat) (n : Nat) :
    runAdvance p (ns ++ [n]) = (runAdvance p ns).update_book_progress n := by
  simp [runAdvance, List.foldl_append]

theorem runAdvance_cons (p : BookProgress) (n : Nat) (ns : List Nat) :
    runAdvance p (n :: ns) = runAdvance (p.update_book_progress n) ns := rfl

theorem runAdvance_bound (ns : List Nat) (p : BookProgress)
    (hp : p.current_chunk ≤ p.total_chunks)
    (hc : List.Chain' (· ≤ ·) (p.total_chunks :: ns)) :
    (runAdvance p ns).current_chunk ≤ (runAdvance p ns).total_chunks := by
  induction ns generalizing p with
  | nil => exact hp
  | cons n ns ih =>
      rw [List.chain'_cons] at hc
      have hle : p.current_chunk ≤ n := le_trans hp hc.1
      have hstep := update_current_le_total p n hle
      have : List.Chain' (· ≤ ·)
          ((p.update_book_progress n).total_chunks :: ns) := by
        rw [hstep.2]
        exact hc.2
      exact ih (p.update_book_progress n) hstep.1 this

/-- Invariant maintained by repeated `advance` calls that all carry the same
`totalUnits` argument `n`. -/
def AdvInv (n : Nat) (p : BookProgress) : Prop :=
  p.total_chunks = n ∧ p.current_chunk ≤ n ∧
    (p.completed = true ↔ (0 < n ∧ n ≤ p.current_chunk))

theorem advInv_establish (n : Nat) (p : BookProgress)
    (hc : p.current_chunk = 0) (hf : p.completed = false) :
    AdvInv n (p.update_book_progress n) := by
  simp only [BookProgress.update_book_progress, BookProgress.mark_chunk_read,
    AdvInv]
  split <;> simp_all <;> omega

theorem advInv_step (n : Nat) (p : BookProgress) (h : AdvInv n p) :
    AdvInv n (p.update_book_progress n) := by
  obtain ⟨c, t, d, cp⟩ := p
  obtain ⟨ht, hle, hiff⟩ := h
  simp only at ht hle hiff
  simp only [BookProgress.update_book_progress, BookProgress.mark_chunk_read,
    AdvInv]
  by_cases hcn : c < n
  · by_cases hn1 : n ≤ c + 1
    · simp only [hcn, hn1, if_true, reduceIte]
      refine ⟨trivial, by omega, ?_⟩
      simp only [and_true, true_iff]
      omega
    · simp only [hcn, hn1, if_true, reduceIte]
      refine ⟨trivial, by omega, ?_⟩
      simp only [and_false, iff_false]
      intro hcp
      exact absurd (hiff.mp hcp).2 (by omega)
  · simp only [hcn, reduceIte]
    exact ⟨trivial, hle, hiff⟩

theorem advInv_replicate (k n : Nat) (p : BookProgress) (h : AdvInv n p) :
    AdvInv n (runAdvance p (List.replicate k n)) := by
  induction k generalizing p with
  | zero => exact h
  | succ k ih =>
      rw [List.replicate_succ]
      exact ih _ (advInv_step n p h)

theorem setTotals_fields (ks : List Nat) (p : BookProgress) :
    (runOpsRec p (ks.map TrackerOp.setTotal)).current_chunk = p.current_chunk ∧
    (runOpsRec p (ks.map TrackerOp.setTotal)).reading_days = p.reading_days ∧
    (runOpsRec p (ks.map TrackerOp.setTotal)).completed = p.completed := by
  induction ks generalizing p with
  | nil => exact ⟨rfl, rfl, rfl⟩
  | cons k ks ih =>
      simp only [List.map_cons, runOpsRec, List.foldl_cons] at *
      exact ih _

theorem runOpsRec_append (p : BookProgress) (xs ys : List TrackerOp) :
    runOpsRec p (xs ++ ys) = runOpsRec (runOpsRec p xs) ys := by
  simp [runOpsRec, List.foldl_append]


/-! ## Claims about the progress tracker -/

/-- C1: starting from a book with no tracked progress, calling
`update_book_progress` three times with `totalUnits = 3` yields the snapshots
`(currentUnit = 1, readingDays = 1, completed = false)`, `(2, 2, false)`,
`(3, 3, true)`, and a fourth call returns `(3, 3, true)` unchanged. -/
theorem c1_advance_scenario :
    (ProgressStore.empty.update_book_progress "bookA" 3).2 =
        ⟨1, 3, 1, false⟩ ∧
    ((ProgressStore.empty.update_book_progress "bookA" 3).1.update_book_progress
        "bookA" 3).2 = ⟨2, 3, 2, false⟩ ∧
    (((ProgressStore.empty.update_book_progress "bookA"
        3).1.update_book_progress "bookA" 3).1.update_book_progress
        "bookA" 3).2 = ⟨3, 3, 3, true⟩ ∧
    ((((ProgressStore.empty.update_book_progress "bookA"
        3).1.update_book_progress "bookA" 3).1.update_book_progress
        "bookA" 3).1.update_book_progress "bookA" 3).2 = ⟨3, 3, 3, true⟩ ∧
    ((((ProgressStore.empty.update_book_progress "bookA"
        3).1.update_book_progress "bookA" 3).1.update_book_progress
        "bookA" 3).1.update_book_progress "bookA" 3).2 =
      (((ProgressStore.empty.update_book_progress "bookA"
        3).1.update_book_progress "bookA" 3).1.update_book_progress
        "bookA" 3).2 := by
  decide

/-- C2 counterexample: the advance sequence with totalUnits arguments
`[2, 2, 1]` from fresh state leaves `current_chunk = 2` above the stored
`total_chunks = 1`, so `currentUnit <= totalUnits` fails after the third
call. -/
theorem c2_counterexample :
    ¬ ((runOps ProgressStore.empty "bookA"
          ([2, 2, 1].map TrackerOp.advance) "bookA").current_chunk ≤
        (runOps ProgressStore.empty "bookA"
          ([2, 2, 1].map TrackerOp.advance) "bookA").total_chunks) := by
  decide

/-- C2 (amended): over any sequence of `update_book_progress` calls on one
book, `current_chunk` is non-decreasing from call to call; and
`current_chunk <= total_chunks` holds after every call provided the
`totalUnits` arguments passed to the calls are non-decreasing. -/
theorem c2_monotonicity (b : String) (ns : List Nat) :
    (∀ n : Nat,
      (runOps ProgressStore.empty b (ns.map TrackerOp.advance) b).current_chunk ≤
        (runOps ProgressStore.empty b
          ((ns ++ [n]).map TrackerOp.advance) b).current_chunk) ∧
    (List.Chain' (· ≤ ·) ns →
      (runOps ProgressStore.empty b (ns.map TrackerOp.advance) b).current_chunk ≤
        (runOps ProgressStore.empty b (ns.map TrackerOp.advance) b).total_chunks) := by
  constructor
  · intro n
    rw [runOps_advance_eq_runAdvance, runOps_advance_eq_runAdvance,
      runAdvance_append]
    exact update_current_mono _ n
  · intro hc
    rw [runOps_advance_eq_runAdvance]
    refine runAdvance_bound ns _ (by simp [ProgressStore.empty, BookProgress.fresh]) ?_
    cases ns with
    | nil => simp
    | cons m ms =>
        rw [List.chain'_cons]
        exact ⟨Nat.zero_le m, hc⟩

/-- C2 witness: the amended statement instantiated at the book `"a"` with the
advance sequence `[1, 2, 3]`. -/
theorem c2_monotonicity_witness :
    ((runOps ProgressStore.empty "a" ([1, 2, 3].map TrackerOp.advance) "a").current_chunk ≤
      (runOps ProgressStore.empty "a"
        (([1, 2, 3] ++ [5]).map TrackerOp.advance) "a").current_chunk) ∧
    ((runOps ProgressStore.empty "a" ([1, 2, 3].map TrackerOp.advance) "a").current_chunk ≤
      (runOps ProgressStore.empty "a" ([1, 2, 3].map TrackerOp.advance) "a").total_chunks) :=
  ⟨(c2_monotonicity "a" [1, 2, 3]).1 5,
   (c2_monotonicity "a" [1, 2, 3]).2 (by simp)⟩

/-- C3 counterexample: from fresh state, `advance 1` then `advance 3` reaches
the record `(current = 2, total = 3, completed = true)`: `totalUnits > 0` yet
`completed` is true while `currentUnit < totalUnits`, refuting the claimed
invariant for mixed-argument advance sequences. -/
theorem c3_counterexample :
    ¬ (0 < (runOps ProgressStore.empty "bookA"
            [TrackerOp.advance 1, TrackerOp.advance 3] "bookA").total_chunks →
        ((runOps ProgressStore.empty "bookA"
            [TrackerOp.advance 1, TrackerOp.advance 3] "bookA").completed = true ↔
          (runOps ProgressStore.empty "bookA"
              [TrackerOp.advance 1, TrackerOp.advance 3] "bookA").total_chunks ≤
            (runOps ProgressStore.empty "bookA"
              [TrackerOp.advance 1, TrackerOp.advance 3] "bookA").current_chunk)) := by
  decide

/-- C3 (amended): the invariant `completed = true` iff
`currentUnit >= totalUnits` (provided `totalUnits > 0`) holds in every state
reachable from the fresh record via any number of `set_book_total_chunks`
calls followed by `update_book_progress` calls that all pass the same
`totalUnits` value. -/
theorem c3_completed_iff (b : String) (ks : List Nat) (k n : Nat) :
    (0 < (runOps ProgressStore.empty b
          (ks.map TrackerOp.setTotal ++
            List.replicate k (TrackerOp.advance n)) b).total_chunks) →
      ((runOps ProgressStore.empty b
          (ks.map TrackerOp.setTotal ++
            List.replicate k (TrackerOp.advance n)) b).completed = true ↔
        (runOps ProgressStore.empty b
            (ks.map TrackerOp.setTotal ++
              List.replicate k (TrackerOp.advance n)) b).total_chunks ≤
          (runOps ProgressStore.empty b
              (ks.map TrackerOp.setTotal ++
                List.replicate k (TrackerOp.advance n)) b).current_chunk) := by
  rw [runOps_at, runOpsRec_append]
  have hfields := setTotals_fields ks (ProgressStore.empty b)
  set p0 := runOpsRec (ProgressStore.empty b) (ks.map TrackerOp.setTotal) with hp0
  have hc0 : p0.current_chunk = 0 := hfields.1
  have hf0 : p0.completed = false := hfields.2.2
  have hrep : ∀ m, List.replicate m (TrackerOp.advance n) =
      (List.replicate m n).map TrackerOp.advance := by
    intro m; simp [List.map_replicate]
  rw [hrep, runOpsRec_advance]
  cases k with
  | zero =>
      simp only [List.replicate_zero, runAdvance, List.foldl_nil]
      intro hpos
      rw [hf0, hc0]
      constructor
      · intro hfalse; cases hfalse
      · intro hle; omega
  | succ k =>
      rw [List.replicate_succ, runAdvance_cons]
      have hinv : AdvInv n (runAdvance (p0.update_book_progress n)
          (List.replicate k n)) :=
        advInv_replicate k n _ (advInv_establish n p0 hc0 hf0)
      obtain ⟨ht, hle, hiff⟩ := hinv
      intro hpos
      rw [ht] at hpos ⊢
      rw [hiff]
      constructor
      · intro h; exact h.2
      · intro h; exact ⟨hpos, h⟩

/-- C3 witness: the amended statement instantiated with one `setTotal 5`
followed by two `advance 1` calls on book `"a"`. -/
theorem c3_completed_iff_witness :
    (runOps ProgressStore.empty "a"
        ([5].map TrackerOp.setTotal ++
          List.replicate 2 (TrackerOp.advance 1)) "a").completed = true ↔
      (runOps ProgressStore.empty "a"
          ([5].map TrackerOp.setTotal ++
            List.replicate 2 (TrackerOp.advance 1)) "a").total_chunks ≤
        (runOps ProgressStore.empty "a"
            ([5].map TrackerOp.setTotal ++
              List.replicate 2 (TrackerOp.advance 1)) "a").current_chunk :=
  c3_completed_iff "a" [5] 2 1 (by decide)

/-- C9 counterexample: the record with `current_chunk = 5`,
`total_chunks = 2` (reachable only through external edits or re-chunking) has
`progress_percentage = 250`, outside `[0, 100]`, because the code does not
clamp. -/
theorem c9_counterexample :
    ¬ ((⟨5, 2, 0, false⟩ : BookProgress).progress_percentage ≤ 100) := by
  norm_num [BookProgress.progress_percentage]

/-- C9 (amended): `progress_percentage` is always non-negative, and it is at
most 100 whenever `current_chunk <= total_chunks`; the upper bound can fail
when `current_chunk > total_chunks`. -/
theorem c9_percentage_bounds (p : BookProgress) :
    0 ≤ p.progress_percentage ∧
      (p.current_chunk ≤ p.total_chunks → p.progress_percentage ≤ 100) := by
  unfold BookProgress.progress_percentage
  split
  · exact ⟨le_refl 0, fun _ => by norm_num⟩
  · rename_i ht
    constructor
    · positivity
    · intro hle
      have htpos : (0 : ℚ) < (p.total_chunks : ℚ) := by
        exact_mod_cast Nat.pos_of_ne_zero ht
      have hdiv : (p.current_chunk : ℚ) / (p.total_chunks : ℚ) ≤ 1 := by
        rw [div_le_one htpos]
        exact_mod_cast hle
      calc (p.current_chunk : ℚ) / (p.total_chunks : ℚ) * 100
          ≤ 1 * 100 := by
            apply mul_le_mul_of_nonneg_right hdiv
            norm_num
        _ = 100 := by norm_num

/-- C9 witness: the amended bounds instantiated at the record
`(current = 1, total = 2)`. -/
theorem c9_percentage_bounds_witness :
    0 ≤ (⟨1, 2, 0, false⟩ : BookProgress).progress_percentage ∧
      (⟨1, 2, 0, false⟩ : BookProgress).progress_percentage ≤ 100 :=
  ⟨(c9_percentage_bounds ⟨1, 2, 0, false⟩).1,
   (c9_percentage_bounds ⟨1, 2, 0, false⟩).2 (by decide)⟩

/-! ## Text utilities (src/utils.py) -/

/-- Whitespace as recognized by Python `str.split()` / `str.strip()`:
ASCII whitespace, the C1 separators, and the Unicode space characters. -/
def pyWs (c : Char) : Bool :=
  c = ' ' || c = '\t' || c = '\n' || c = '\r' ||
  c = Char.ofNat 11 || c = Char.ofNat 12 ||
  c = Char.ofNat 28 || c = Char.ofNat 29 ||
  c = Char.ofNat 30 || c = Char.ofNat 31 ||
  c = Char.ofNat 133 || c = Char.ofNat 160 || c = Char.ofNat 5760 ||
  (8192 ≤ c.toNat && c.toNat ≤ 8202) ||
  c = Char.ofNat 8232 || c = Char.ofNat 8233 || c = Char.ofNat 8239 ||
  c = Char.ofNat 8287 || c = Char.ofNat 12288

/-- Characters matched by the regex class `[ \t]` in `clean_text`. -/
def isBlankTab (c : Char) : Bool := c = ' ' || c = '\t'

/-- Python `str.strip()` on the right end only. -/
def rstripL (p : Char → Bool) (s : List Char) : List Char :=
  (s.reverse.dropWhile p).reverse

/-- Python `str.strip()`: drop leading and trailing whitespace. -/
def stripL (s : List Char) : List Char :=
  rstripL pyWs (s.dropWhile pyWs)

/-- Close the word accumulator (`wordsAux` helper): the accumulator holds the
current word reversed. -/
def flushWord (cur : List Char) : List (List Char) :=
  if cur = [] then [] else [cur.reverse]

/-- Accumulator pass behind Python `str.split()` with no separator:
maximal runs of non-whitespace characters, in order. -/
def wordsAux : List Char → List Char → List (List Char)
  | cur, [] => flushWord cur
  | cur, c :: s =>
      if pyWs c then flushWord cur ++ wordsAux [] s
      else wordsAux (c :: cur) s

/-- Python `text.split()`: the whitespace-delimited tokens of `text`. -/
def words (s : List Char) : List (List Char) := wordsAux [] s

/-- Word counting from `count_words` in src/utils.py: return 0 for
whitespace-only text, else the number of split tokens whose own strip is
non-empty. -/
def count_words (s : List Char) : Nat :=
  if stripL s = [] then 0
  else ((words s).filter (fun w => !(stripL w).isEmpty)).length

/-- Prepend a character to the first piece of a split result, used by the
splitting functions below. -/
def consHead (c : Char) : List (List Char) → List (List Char)
  | [] => [[c]]
  | p :: ps => (c :: p) :: ps

/-- Python `text.split("\n\n")`: split on each non-overlapping, leftmost
occurrence of the two-newline paragraph separator. -/
def splitP : List Char → List (List Char)
  | [] => [[]]
  | [c] => [[c]]
  | c :: d :: rest =>
      if c = '\n' ∧ d = '\n' then [] :: splitP rest
      else consHead c (splitP (d :: rest))

/-- Python `"\n\n".join(...)`: rejoin paragraphs with the separator. -/
def joinNN (ps : List (List Char)) : List Char :=
  List.intercalate ['\n', '\n'] ps

/-- Python `text.split('\n')`. -/
def splitLines : List Char → List (List Char)
  | [] => [[]]
  | c :: rest =>
      if c = '\n' then [] :: splitLines rest
      else consHead c (splitLines rest)

/-- Python `'\n'.join(...)`. -/
def joinLines (ls : List (List Char)) : List Char :=
  List.intercalate ['\n'] ls

/-- The regex substitution `re.sub(r'[ \t]+', ' ', line)`: replace each
maximal run of spaces and tabs by a single space. -/
def collapseWs : List Char → List Char
  | [] => []
  | c :: s =>
      if isBlankTab c then ' ' :: collapseWs (s.dropWhile isBlankTab)
      else c :: collapseWs s
termination_by s => s.length
decreasing_by
  · simpa using Nat.lt_succ_of_le (List.dropWhile_suffix isBlankTab).sublist.length_le
  · simp

/-- Quote normalization from `clean_text`: the substitutions replacing the
curly double quotes U+201C and U+201D (and the straight one) by `"`, and the
curly single quotes U+2018 and U+2019 (and the apostrophe) by the
apostrophe U+0027. -/
def normQuote (c : Char) : Char :=
  if c = Char.ofNat 8220 || c = Char.ofNat 8221 || c = '"' then '"'
  else if c = Char.ofNat 8216 || c = Char.ofNat 8217 || c = Char.ofNat 39 then
    Char.ofNat 39
  else c

/-- The substitution `re.sub(r'\n{3,}', '\n\n', text)`: cap every run of
three or more newlines at exactly two. -/
def squeezeNl : List Char → List Char
  | [] => []
  | [c] => [c]
  | c :: d :: s =>
      if c = '\n' ∧ d = '\n' then
        '\n' :: '\n' :: squeezeNl (s.dropWhile (fun e => e = '\n'))
      else c :: squeezeNl (d :: s)
termination_by s => s.length
decreasing_by
  · simpa using Nat.lt_succ_of_le (Nat.le_succ_of_le
      (List.dropWhile_suffix (fun e => e = '\n')).sublist.length_le)
  · simp

/-- Single line pass of `clean_text`: `re.sub(r'[ \t]+', ' ', line.strip())`. -/
def cleanLine (l : List Char) : List Char := collapseWs (stripL l)

/-- Text normalization from `clean_text` in src/utils.py: empty text stays
empty; otherwise split into physical lines, strip and collapse each line,
rejoin with newlines, normalize quotes, cap newline runs at two, and strip
the whole result. -/
def clean_text (s : List Char) : List Char :=
  if s = [] then []
  else
    stripL (squeezeNl
      ((joinLines ((splitLines s).map cleanLine)).map normQuote))

/-! ## Chunker (src/processors/chunker.py, src/models/core.py) -/

/-- A chunk of text from a book, from `BookChunk` in src/models/core.py. -/
structure BookChunk where
  index : Nat
  content : List Char
  word_count : Nat
  estimated_reading_time : ℚ
deriving DecidableEq, Repr

/-- Chunker configuration, from `TextChunker.__init__`: target reading time
in minutes (a Python float, modelled as a rational) and reading speed. -/
structure TextChunker where
  target_reading_time : ℚ := 10
  words_per_minute : Nat := 200
deriving DecidableEq, Repr

/-- Word budget per chunk: `int(target_reading_time * words_per_minute)`.
Python `int()` truncates toward zero; on the exact rational
`target_reading_time * words_per_minute = num * wpm / den` that is the
truncating integer division of `num * wpm` by `den` (the floor for the
non-negative values used here). -/
def TextChunker.target_words (tc : TextChunker) : Nat :=
  ((tc.target_reading_time.num * (tc.words_per_minute : Int)).tdiv
    (tc.target_reading_time.den : Int)).toNat

/-- Chunk constructor, from `TextChunker._create_chunk`: derive the word
count and the estimated reading time from the content. -/
def TextChunker.create_chunk (tc : TextChunker) (index : Nat)
    (content : List Char) : BookChunk :=
  let word_count := count_words content
  { index := index
    content := content
    word_count := word_count
    estimated_reading_time := (word_count : ℚ) / (tc.words_per_minute : ℚ) }

/-- The paragraph loop of `TextChunker.chunk_text`: walk the split
paragraphs, strip each, skip empty ones, close the running buffer into a
chunk whenever adding the next paragraph would exceed the word budget while
the buffer is non-empty, and close the final buffer at the end.  `chunks` is
the accumulated chunk list, `cur` the buffered (stripped) paragraphs, `cnt`
the running word count of the buffer. -/
def chunkLoop (tc : TextChunker) :
    List (List Char) → List BookChunk → List (List Char) → Nat →
      List BookChunk
  | [], chunks, cur, _ =>
      if cur = [] then chunks
      else chunks ++ [tc.create_chunk chunks.length (joinNN cur)]
  | para :: ps, chunks, cur, cnt =>
      let p := stripL para
      if p = [] then chunkLoop tc ps chunks cur cnt
      else
        let w := count_words p
        if tc.target_words < cnt + w ∧ cur ≠ [] then
          chunkLoop tc ps
            (chunks ++ [tc.create_chunk chunks.length (joinNN cur)]) [p] w
        else chunkLoop tc ps chunks (cur ++ [p]) (cnt + w)

/-- Text chunking from `TextChunker.chunk_text`: whitespace-only text yields
no chunks, otherwise the paragraph loop runs over `text.split("\n\n")`. -/
def TextChunker.chunk_text (tc : TextChunker) (text : List Char) :
    List BookChunk :=
  if stripL text = [] then []
  else chunkLoop tc (splitP text) [] [] 0

/-- The paragraphs the chunker actually processes: the split pieces after
stripping, with empty ones discarded. -/
def processedParas (text : List Char) : List (List Char) :=
  ((splitP text).map stripL).filter (fun p => !p.isEmpty)

/-- The paragraph loop restricted to already-processed paragraphs (stripped
and non-empty), with the per-paragraph strip-and-skip removed.  `chunkLoop`
agrees with it on any paragraph list once the paragraphs are processed; all
structural lemmas are proved against this form. -/
def chunkCore (tc : TextChunker) :
    List (List Char) → List BookChunk → List (List Char) → Nat →
      List BookChunk
  | [], chunks, cur, _ =>
      if cur = [] then chunks
      else chunks ++ [tc.create_chunk chunks.length (joinNN cur)]
  | p :: ps, chunks, cur, cnt =>
      let w := count_words p
      if tc.target_words < cnt + w ∧ cur ≠ [] then
        chunkCore tc ps
          (chunks ++ [tc.create_chunk chunks.length (joinNN cur)]) [p] w
      else chunkCore tc ps chunks (cur ++ [p]) (cnt + w)

/-! ## Lemmas about words and count_words -/

theorem flushWord_nil : flushWord [] = [] := rfl

theorem flushWord_ne_nil (cur : List Char) (h : cur ≠ []) :
    flushWord cur ≠ [] := by
  simp [flushWord, h]

theorem wordsAux_ws_cons (cur : List Char) (c : Char) (s : List Char)
    (hc : pyWs c = true) :
    wordsAux cur (c :: s) = flushWord cur ++ wordsAux [] s := by
  simp [wordsAux, hc]

theorem wordsAux_not_ws_cons (cur : List Char) (c : Char) (s : List Char)
    (hc : pyWs c = false) :
    wordsAux cur (c :: s) = wordsAux (c :: cur) s := by
  simp [wordsAux, hc]

theorem words_ws_cons (c : Char) (s : List Char) (hc : pyWs c = true) :
    words (c :: s) = words s := by
  simp [words, wordsAux, hc, flushWord]

theorem wordsAux_append_ws (b : List Char) (c : Char) (hc : pyWs c = true)
    (a : List Char) :
    ∀ cur, wordsAux cur (a ++ c :: b) = wordsAux cur a ++ words b := by
  induction a with
  | nil =>
      intro cur
      rw [List.nil_append, wordsAux_ws_cons cur c b hc]
      rfl
  | cons d a ih =>
      intro cur
      by_cases hd : pyWs d
      · rw [List.cons_append, wordsAux_ws_cons _ _ _ hd,
          wordsAux_ws_cons _ _ _ hd, ih, List.append_assoc]
      · rw [List.cons_append,
          wordsAux_not_ws_cons _ _ _ (Bool.of_not_eq_true hd),
          wordsAux_not_ws_cons _ _ _ (Bool.of_not_eq_true hd), ih]

theorem words_append_ws (a : List Char) (c : Char) (b : List Char)
    (hc : pyWs c = true) :
    words (a ++ c :: b) = words a ++ words b :=
  wordsAux_append_ws b c hc a []

theorem words_all_ws (t : List Char) (h : ∀ c ∈ t, pyWs c = true) :
    words t = [] := by
  induction t with
  | nil => rfl
  | cons c t ih =>
      rw [words_ws_cons c t (h c (by simp))]
      exact ih (fun d hd => h d (by simp [hd]))

theorem words_append_all_ws (z t : List Char)
    (h : ∀ c ∈ t, pyWs c = true) :
    words (z ++ t) = words z := by
  cases t with
  | nil => simp
  | cons c t =>
      rw [words_append_ws z c t (h c (by simp)),
        words_all_ws t (fun d hd => h d (by simp [hd])), List.append_nil]

theorem words_dropWhile (s : List Char) :
    words (s.dropWhile pyWs) = words s := by
  induction s with
  | nil => rfl
  | cons c s ih =>
      by_cases hc : pyWs c
      · rw [List.dropWhile_cons_of_pos hc, ih, words_ws_cons c s hc]
      · rw [List.dropWhile_cons_of_neg hc]

theorem rstripL_decomp (p : Char → Bool) (s : List Char) :
    ∃ t, s = rstripL p s ++ t ∧ ∀ c ∈ t, p c = true := by
  refine ⟨(s.reverse.takeWhile p).reverse, ?_, ?_⟩
  · rw [rstripL, ← List.reverse_append, List.takeWhile_append_dropWhile,
      List.reverse_reverse]
  · intro c hc
    rw [List.mem_reverse] at hc
    exact List.mem_takeWhile_imp hc

theorem words_rstrip (s : List Char) : words (rstripL pyWs s) = words s := by
  obtain ⟨t, hs, ht⟩ := rstripL_decomp pyWs s
  conv_rhs => rw [hs]
  rw [words_append_all_ws _ t ht]

theorem words_strip (s : List Char) : words (stripL s) = words s := by
  rw [stripL, words_rstrip, words_dropWhile]

theorem wordsAux_ne_nil (s : List Char) :
    ∀ cur, cur ≠ [] → wordsAux cur s ≠ [] := by
  induction s with
  | nil =>
      intro cur h
      exact flushWord_ne_nil cur h
  | cons c s ih =>
      intro cur h
      by_cases hc : pyWs c
      · rw [wordsAux_ws_cons _ _ _ hc]
        simp [flushWord, h]
      · rw [wordsAux_not_ws_cons _ _ _ (Bool.of_not_eq_true hc)]
        exact ih _ (by simp)

theorem dropWhile_head_false (p : Char → Bool) (s : List Char) (a : Char)
    (r : List Char) (h : s.dropWhile p = a :: r) : p a = false := by
  induction s with
  | nil => cases h
  | cons c s ih =>
      by_cases hc : p c
      · rw [List.dropWhile_cons_of_pos hc] at h
        exact ih h
      · rw [List.dropWhile_cons_of_neg hc] at h
        cases h
        exact Bool.of_not_eq_true hc

theorem stripL_head_not_ws (s : List Char) (c : Char)
    (h : (stripL s).head? = some c) : pyWs c = false := by
  rw [stripL] at h
  obtain ⟨t, hd, _⟩ := rstripL_decomp pyWs (s.dropWhile pyWs)
  have hpre : (s.dropWhile pyWs).head? = some c := by
    rw [hd]
    cases hx : rstripL pyWs (s.dropWhile pyWs) with
    | nil => rw [hx] at h; cases h
    | cons a r =>
        rw [hx] at h
        simp at h
        simp [hx, h]
  cases hdw : s.dropWhile pyWs with
  | nil => rw [hdw] at hpre; cases hpre
  | cons a r =>
      rw [hdw] at hpre
      simp at hpre
      exact hpre ▸ dropWhile_head_false pyWs s a r hdw

theorem words_of_strip_ne_nil (s : List Char) (h : stripL s ≠ []) :
    words s ≠ [] := by
  rw [← words_strip]
  cases hs : stripL s with
  | nil => exact absurd hs h
  | cons c r =>
      have hc : pyWs c = false := stripL_head_not_ws s c (by simp [hs])
      rw [words, wordsAux_not_ws_cons _ _ _ hc]
      exact wordsAux_ne_nil r [c] (by simp)

theorem wordsAux_mem (s : List Char) :
    ∀ cur, (∀ c ∈ cur, pyWs c = false) →
      ∀ w ∈ wordsAux cur s, w ≠ [] ∧ ∀ c ∈ w, pyWs c = false := by
  induction s with
  | nil =>
      intro cur hcur w hw
      by_cases h : cur = []
      · simp [wordsAux, flushWord, h] at hw
      · simp [wordsAux, flushWord, h] at hw
        subst hw
        exact ⟨by simp [h], fun c hc => hcur c (by simpa using hc)⟩
  | cons c s ih =>
      intro cur hcur w hw
      by_cases hc : pyWs c
      · rw [wordsAux_ws_cons _ _ _ hc] at hw
        rcases List.mem_append.mp hw with hw | hw
        · by_cases h : cur = []
          · simp [flushWord, h] at hw
          · simp [flushWord, h] at hw
            subst hw
            exact ⟨by simp [h], fun d hd => hcur d (by simpa using hd)⟩
        · exact ih [] (by simp) w hw
      · rw [wordsAux_not_ws_cons _ _ _ (Bool.of_not_eq_true hc)] at hw
        refine ih (c :: cur) ?_ w hw
        intro d hd
        rcases List.mem_cons.mp hd with hd | hd
        · subst hd; exact Bool.of_not_eq_true hc
        · exact hcur d hd

theorem dropWhile_all_false (p : Char → Bool) (w : List Char)
    (h : ∀ c ∈ w, p c = false) : w.dropWhile p = w := by
  cases w with
  | nil => rfl
  | cons c r =>
      exact List.dropWhile_cons_of_neg (by simp [h c (by simp)])

theorem stripL_no_ws (w : List Char) (h : ∀ c ∈ w, pyWs c = false) :
    stripL w = w := by
  rw [stripL, dropWhile_all_false pyWs w h, rstripL,
    dropWhile_all_false pyWs w.reverse (fun c hc => h c (by simpa using hc)),
    List.reverse_reverse]

theorem count_words_eq_length_words (s : List Char) :
    count_words s = (words s).length := by
  by_cases hs : stripL s = []
  · rw [count_words, if_pos hs, ← words_strip, hs]
    rfl
  · rw [count_words, if_neg hs]
    congr 1
    apply List.filter_eq_self.mpr
    intro w hw
    obtain ⟨hne, hchars⟩ := wordsAux_mem s [] (by simp) w hw
    rw [stripL_no_ws w hchars]
    simp [List.isEmpty_iff, hne]

theorem joinNN_cons_cons (q r : List Char) (rest : List (List Char)) :
    joinNN (q :: r :: rest) = q ++ '\n' :: '\n' :: joinNN (r :: rest) := by
  simp [joinNN, List.intercalate]

theorem joinNN_singleton (q : List Char) : joinNN [q] = q := by
  simp [joinNN, List.intercalate]

theorem words_joinNN (qs : List (List Char)) :
    words (joinNN qs) = (qs.map words).flatten := by
  induction qs with
  | nil => rfl
  | cons q rest ih =>
      cases rest with
      | nil => simp [joinNN_singleton]
      | cons r rest' =>
          rw [joinNN_cons_cons, words_append_ws _ '\n' _ (by rfl),
            words_ws_cons '\n' _ (by rfl), ih]
          simp

theorem count_words_joinNN (qs : List (List Char)) :
    count_words (joinNN qs) = (qs.map count_words).sum := by
  rw [count_words_eq_length_words, words_joinNN, List.length_flatten]
  congr 1
  simp only [List.map_map]
  apply List.map_congr_left
  intro q _
  exact (count_words_eq_length_words q).symm

/-! ## Lemmas about stripL -/

theorem stripL_nil : stripL [] = [] := rfl

theorem stripL_getLast_not_ws (s : List Char) (c : Char)
    (h : (stripL s).getLast? = some c) : pyWs c = false := by
  rw [stripL, rstripL, List.getLast?_reverse] at h
  cases hdw : (s.dropWhile pyWs).reverse.dropWhile pyWs with
  | nil => rw [hdw] at h; cases h
  | cons a r =>
      rw [hdw] at h
      simp at h
      exact h ▸ dropWhile_head_false pyWs _ a r hdw

theorem stripL_of_ends (w : List Char)
    (h1 : ∀ c, w.head? = some c → pyWs c = false)
    (h2 : ∀ c, w.getLast? = some c → pyWs c = false) :
    stripL w = w := by
  cases hw : w with
  | nil => rfl
  | cons a r =>
      rw [stripL, List.dropWhile_cons_of_neg
        (by simp [h1 a (by rw [hw]; rfl)]), rstripL]
      cases hrev : (a :: r).reverse with
      | nil => simp at hrev
      | cons b t =>
          have hb : pyWs b = false := by
            apply h2 b
            rw [hw, ← List.head?_reverse, hrev]
            rfl
          rw [List.dropWhile_cons_of_neg (by simp [hb]), ← hrev,
            List.reverse_reverse]

theorem stripL_idem (s : List Char) : stripL (stripL s) = stripL s :=
  stripL_of_ends (stripL s) (stripL_head_not_ws s) (stripL_getLast_not_ws s)

theorem stripL_decomp (s : List Char) :
    ∃ t1 t2, s = t1 ++ stripL s ++ t2 ∧ (∀ c ∈ t1, pyWs c = true) ∧
      ∀ c ∈ t2, pyWs c = true := by
  obtain ⟨t2, hd, ht2⟩ := rstripL_decomp pyWs (s.dropWhile pyWs)
  refine ⟨s.takeWhile pyWs, t2, ?_, ?_, ht2⟩
  · conv_lhs => rw [← List.takeWhile_append_dropWhile (p := pyWs) (l := s), hd]
    rw [List.append_assoc]
    rfl
  · intro c hc
    exact List.mem_takeWhile_imp hc

theorem stripL_mem (s : List Char) (c : Char) (h : c ∈ stripL s) : c ∈ s := by
  obtain ⟨t1, t2, hs, _, _⟩ := stripL_decomp s
  rw [hs]
  simp [h]

theorem stripL_eq_nil_of_all_ws (s : List Char)
    (h : ∀ c ∈ s, pyWs c = true) : stripL s = [] := by
  have hd : s.dropWhile pyWs = [] := by
    induction s with
    | nil => rfl
    | cons c r ih =>
        rw [List.dropWhile_cons_of_pos (h c (by simp))]
        exact ih (fun d hd => h d (by simp [hd]))
  rw [stripL, hd]
  rfl

theorem all_ws_of_stripL_eq_nil (s : List Char) (h : stripL s = []) :
    ∀ c ∈ s, pyWs c = true := by
  obtain ⟨t1, t2, hs, h1, h2⟩ := stripL_decomp s
  rw [h] at hs
  intro c hc
  rw [hs] at hc
  simp at hc
  rcases hc with hc | hc
  · exact h1 c hc
  · exact h2 c hc

/-! ## Lemmas about splitP and joinNN -/

theorem splitP_ne_nil (z : List Char) : splitP z ≠ [] := by
  induction z using splitP.induct with
  | case1 => simp [splitP]
  | case2 c => simp [splitP]
  | case3 c d rest h ih => simp [splitP, h]
  | case4 c d rest h ih =>
      rw [splitP, if_neg h]
      cases splitP (d :: rest) <;> simp [consHead]

theorem joinNN_consHead (c : Char) (L : List (List Char)) (h : L ≠ []) :
    joinNN (consHead c L) = c :: joinNN L := by
  cases L with
  | nil => exact absurd rfl h
  | cons p ps =>
      cases ps with
      | nil => rw [consHead, joinNN_singleton, joinNN_singleton]
      | cons r rest =>
          rw [consHead, joinNN_cons_cons, joinNN_cons_cons, List.cons_append]

theorem joinNN_splitP (z : List Char) : joinNN (splitP z) = z := by
  induction z using splitP.induct with
  | case1 => rw [splitP, joinNN_singleton]
  | case2 c => rw [splitP, joinNN_singleton]
  | case3 c d rest h ih =>
      obtain ⟨rfl, rfl⟩ := h
      rw [splitP, if_pos ⟨rfl, rfl⟩]
      cases hs : splitP rest with
      | nil => exact absurd hs (splitP_ne_nil rest)
      | cons p ps =>
          rw [joinNN_cons_cons, ← hs, ih]
          rfl
  | case4 c d rest h ih =>
      rw [splitP, if_neg h, joinNN_consHead c _ (splitP_ne_nil (d :: rest)), ih]

theorem splitP_head (z : List Char) (p : List Char) (ps : List (List Char))
    (hz : splitP z = p :: ps) (hne : p ≠ []) : p.head? = z.head? := by
  induction z using splitP.induct generalizing p ps with
  | case1 =>
      rw [splitP] at hz
      cases hz
      exact absurd rfl hne
  | case2 c =>
      rw [splitP] at hz
      cases hz
      rfl
  | case3 c d rest h ih =>
      rw [splitP, if_pos h] at hz
      cases hz
      exact absurd rfl hne
  | case4 c d rest h ih =>
      rw [splitP, if_neg h] at hz
      cases hq : splitP (d :: rest) with
      | nil => exact absurd hq (splitP_ne_nil (d :: rest))
      | cons q qs =>
          rw [hq, consHead] at hz
          cases hz
          rfl

/-- Scan for an occurrence of the two-newline separator inside a string. -/
def hasNN : List Char → Bool
  | c :: d :: s => (c = '\n' && d = '\n') || hasNN (d :: s)
  | _ => false

theorem hasNN_nil : hasNN [] = false := rfl

theorem hasNN_single (c : Char) : hasNN [c] = false := rfl

theorem hasNN_cons_cons (c d : Char) (s : List Char) :
    hasNN (c :: d :: s) = ((c = '\n' && d = '\n') || hasNN (d :: s)) := rfl

theorem hasNN_tail (c : Char) (s : List Char) (h : hasNN (c :: s) = false) :
    hasNN s = false := by
  cases s with
  | nil => rfl
  | cons d s' =>
      rw [hasNN_cons_cons] at h
      exact (Bool.or_eq_false_iff.mp h).2

theorem hasNN_cons_of (c : Char) (q : List Char) (hq : hasNN q = false)
    (hhead : q = [] ∨ ∃ d q', q = d :: q' ∧ ¬(c = '\n' ∧ d = '\n')) :
    hasNN (c :: q) = false := by
  rcases hhead with rfl | ⟨d, q', rfl, hd⟩
  · rfl
  · rw [hasNN_cons_cons, Bool.or_eq_false_iff]
    refine ⟨?_, hq⟩
    rcases Decidable.em (c = '\n') with hc | hc
    · rcases Decidable.em (d = '\n') with hdn | hdn
      · exact absurd ⟨hc, hdn⟩ hd
      · simp [hdn]
    · simp [hc]

theorem splitP_no_sep (z : List Char) :
    ∀ p ∈ splitP z, hasNN p = false := by
  induction z using splitP.induct with
  | case1 =>
      intro p hp
      rw [splitP] at hp
      simp at hp
      subst hp
      rfl
  | case2 c =>
      intro p hp
      rw [splitP] at hp
      simp at hp
      subst hp
      rfl
  | case3 c d rest h ih =>
      intro p hp
      rw [splitP, if_pos h] at hp
      rcases List.mem_cons.mp hp with rfl | hp
      · rfl
      · exact ih p hp
  | case4 c d rest h ih =>
      intro p hp
      rw [splitP, if_neg h] at hp
      cases hq : splitP (d :: rest) with
      | nil => exact absurd hq (splitP_ne_nil (d :: rest))
      | cons q qs =>
          rw [hq, consHead] at hp
          rcases List.mem_cons.mp hp with rfl | hp
          · refine hasNN_cons_of c q (ih q (by rw [hq]; simp)) ?_
            cases hqq : q with
            | nil => exact Or.inl rfl
            | cons e q' =>
                refine Or.inr ⟨e, q', rfl, ?_⟩
                have he : q.head? = (d :: rest).head? :=
                  splitP_head (d :: rest) q qs hq (by rw [hqq]; simp)
                rw [hqq] at he
                simp at he
                rw [he]
                exact h
          · exact ih p (by rw [hq]; simp [hp])

theorem hasNN_append_left (a b : List Char)
    (h : hasNN (a ++ b) = false) : hasNN a = false := by
  induction a with
  | nil => rfl
  | cons c a' ih =>
      cases a' with
      | nil => rfl
      | cons d a'' =>
          rw [List.cons_append, List.cons_append, hasNN_cons_cons] at h
          obtain ⟨h1, h2⟩ := Bool.or_eq_false_iff.mp h
          rw [hasNN_cons_cons, Bool.or_eq_false_iff]
          exact ⟨h1, ih h2⟩

theorem hasNN_dropWhile (p : Char → Bool) (z : List Char)
    (h : hasNN z = false) : hasNN (z.dropWhile p) = false := by
  induction z with
  | nil => rfl
  | cons c z' ih =>
      by_cases hc : p c
      · rw [List.dropWhile_cons_of_pos hc]
        exact ih (hasNN_tail c z' h)
      · rw [List.dropWhile_cons_of_neg hc]
        exact h

theorem hasNN_rstrip (p : Char → Bool) (z : List Char)
    (h : hasNN z = false) : hasNN (rstripL p z) = false := by
  obtain ⟨t, hz, _⟩ := rstripL_decomp p z
  exact hasNN_append_left _ t (hz ▸ h)

theorem hasNN_strip (z : List Char) (h : hasNN z = false) :
    hasNN (stripL z) = false :=
  hasNN_rstrip pyWs _ (hasNN_dropWhile pyWs z h)

theorem splitP_no_sep_self (q : List Char) (h : hasNN q = false) :
    splitP q = [q] := by
  induction q using splitP.induct with
  | case1 => rfl
  | case2 c => rfl
  | case3 c d rest hcd ih =>
      obtain ⟨rfl, rfl⟩ := hcd
      rw [hasNN_cons_cons] at h
      simp at h
  | case4 c d rest hcd ih =>
      rw [splitP, if_neg hcd, ih (hasNN_tail c _ h), consHead]

theorem splitP_append_sep (w : List Char) :
    ∀ q, hasNN q = false → q.getLast? ≠ some '\n' →
      splitP (q ++ '\n' :: '\n' :: w) = q :: splitP w := by
  intro q
  induction q with
  | nil =>
      intro _ _
      rw [List.nil_append, splitP, if_pos ⟨rfl, rfl⟩]
  | cons c q ih =>
      intro h hlast
      cases q with
      | nil =>
          have hc : ¬(c = '\n' ∧ ('\n' : Char) = '\n') := by
            intro hx
            exact hlast (by rw [hx.1]; rfl)
          rw [List.cons_append, List.nil_append, splitP, if_neg hc,
            splitP, if_pos ⟨rfl, rfl⟩, consHead]
      | cons d q' =>
          have hseam : ¬(c = '\n' ∧ d = '\n') := by
            intro hx
            rw [hasNN_cons_cons] at h
            simp [hx.1, hx.2] at h
          have htail : splitP ((d :: q') ++ '\n' :: '\n' :: w) =
              (d :: q') :: splitP w := by
            refine ih (hasNN_tail c _ h) ?_
            intro hx
            apply hlast
            rw [List.getLast?_cons_cons]
            exact hx
          rw [show (c :: d :: q') ++ '\n' :: '\n' :: w =
            c :: d :: (q' ++ '\n' :: '\n' :: w) from rfl, splitP,
            if_neg hseam]
          rw [show (d :: q') ++ '\n' :: '\n' :: w =
            d :: (q' ++ '\n' :: '\n' :: w) from rfl] at htail
          rw [htail, consHead]

theorem splitP_joinNN (qs : List (List Char)) (hne : qs ≠ [])
    (h : ∀ q ∈ qs, hasNN q = false)
    (hlast : ∀ q ∈ qs, q.getLast? ≠ some '\n') :
    splitP (joinNN qs) = qs := by
  induction qs with
  | nil => exact absurd rfl hne
  | cons q rest ih =>
      cases rest with
      | nil =>
          rw [joinNN_singleton]
          exact splitP_no_sep_self q (h q (by simp))
      | cons r rest' =>
          rw [joinNN_cons_cons,
            splitP_append_sep _ q (h q (by simp)) (hlast q (by simp)),
            ih (by simp) (fun x hx => h x (by simp [hx]))
              (fun x hx => hlast x (by simp [hx]))]

/-! ## Lemmas about the chunker loop -/

theorem chunkLoop_eq_core (tc : TextChunker) (ps : List (List Char)) :
    ∀ chunks cur cnt,
      chunkLoop tc ps chunks cur cnt =
        chunkCore tc ((ps.map stripL).filter (fun p => !p.isEmpty))
          chunks cur cnt := by
  induction ps with
  | nil => intro chunks cur cnt; rfl
  | cons para ps ih =>
      intro chunks cur cnt
      by_cases hp : stripL para = []
      · simp only [chunkLoop, hp, reduceIte, List.map_cons, List.filter_cons,
          List.isEmpty_nil, Bool.not_true]
        exact ih chunks cur cnt
      · have hne : (stripL para).isEmpty = false := by
          simpa [List.isEmpty_iff] using hp
        simp only [chunkLoop, hp, reduceIte, List.map_cons, List.filter_cons,
          hne, Bool.not_false, if_true, chunkCore]
        by_cases hb : tc.target_words < cnt + count_words (stripL para) ∧
            cur ≠ []
        · rw [if_pos hb, if_pos hb]
          exact ih _ _ _
        · rw [if_neg hb, if_neg hb]
          exact ih _ _ _

theorem chunkCore_indices (tc : TextChunker) (qs : List (List Char)) :
    ∀ acc cur cnt, acc.map BookChunk.index = List.range acc.length →
      (chunkCore tc qs acc cur cnt).map BookChunk.index =
        List.range (chunkCore tc qs acc cur cnt).length := by
  induction qs with
  | nil =>
      intro acc cur cnt hacc
      by_cases hc : cur = []
      · simpa [chunkCore, hc] using hacc
      · simp only [chunkCore, hc, reduceIte]
        simp [hacc, TextChunker.create_chunk, List.range_succ]
  | cons q qs ih =>
      intro acc cur cnt hacc
      simp only [chunkCore]
      by_cases hb : tc.target_words < cnt + count_words q ∧ cur ≠ []
      · rw [if_pos hb]
        apply ih
        simp [hacc, TextChunker.create_chunk, List.range_succ]
      · rw [if_neg hb]
        exact ih _ _ _ hacc

theorem chunkCore_wc (tc : TextChunker) (qs : List (List Char)) :
    ∀ acc cur cnt,
      (∀ ch ∈ acc, ch.word_count = count_words ch.content) →
      ∀ ch ∈ chunkCore tc qs acc cur cnt,
        ch.word_count = count_words ch.content := by
  induction qs with
  | nil =>
      intro acc cur cnt hacc ch hch
      by_cases hc : cur = []
      · rw [chunkCore, if_pos hc] at hch
        exact hacc ch hch
      · rw [chunkCore, if_neg hc] at hch
        rcases List.mem_append.mp hch with hch | hch
        · exact hacc ch hch
        · simp only [List.mem_singleton] at hch
          subst hch
          rfl
  | cons q qs ih =>
      intro acc cur cnt hacc ch hch
      simp only [chunkCore] at hch
      by_cases hb : tc.target_words < cnt + count_words q ∧ cur ≠ []
      · rw [if_pos hb] at hch
        refine ih _ _ _ ?_ ch hch
        intro ch' hch'
        rcases List.mem_append.mp hch' with hch' | hch'
        · exact hacc ch' hch'
        · simp only [List.mem_singleton] at hch'
          subst hch'
          rfl
      · rw [if_neg hb] at hch
        exact ih _ _ _ hacc ch hch

/-- Structure of the chunker output: the produced chunk contents are the
separator-joins of a partition of the processed paragraph list into
contiguous non-empty groups, each group fitting the word budget unless it is
a single oversized paragraph. -/
theorem chunkCore_master (tc : TextChunker) (qs : List (List Char)) :
    ∀ (acc : List BookChunk) (cur : List (List Char)),
      (cur ≠ [] →
        ((cur.map count_words).sum ≤ tc.target_words ∨
          ∃ p, cur = [p] ∧ tc.target_words < count_words p)) →
      ∃ gs : List (List (List Char)),
        (chunkCore tc qs acc cur ((cur.map count_words).sum)).map
            BookChunk.content
          = acc.map BookChunk.content ++ gs.map joinNN ∧
        gs.flatten = cur ++ qs ∧
        ∀ g ∈ gs, g ≠ [] ∧
          ((g.map count_words).sum ≤ tc.target_words ∨
            ∃ p, g = [p] ∧ tc.target_words < count_words p) := by
  induction qs with
  | nil =>
      intro acc cur hcur
      by_cases hc : cur = []
      · refine ⟨[], ?_, by simp [hc], by simp⟩
        rw [chunkCore, if_pos hc]
        simp
      · refine ⟨[cur], ?_, by simp, ?_⟩
        · rw [chunkCore, if_neg hc]
          simp [TextChunker.create_chunk]
        · intro g hg
          simp only [List.mem_singleton] at hg
          subst hg
          exact ⟨hc, hcur hc⟩
  | cons q qs ih =>
      intro acc cur hcur
      simp only [chunkCore]
      by_cases hb : tc.target_words <
          (cur.map count_words).sum + count_words q ∧ cur ≠ []
      · rw [if_pos hb]
        have hq : count_words q = (([q] : List (List Char)).map
            count_words).sum := by simp
        obtain ⟨gs, hcont, hflat, hgs⟩ :=
          ih (acc ++ [tc.create_chunk acc.length (joinNN cur)]) [q]
            (fun _ => by
              rcases le_or_lt (count_words q) tc.target_words with h | h
              · exact Or.inl (by simpa using h)
              · exact Or.inr ⟨q, rfl, h⟩)
        rw [hq]
        refine ⟨cur :: gs, ?_, ?_, ?_⟩
        · rw [hcont]
          simp [TextChunker.create_chunk]
        · rw [List.flatten_cons, hflat]
          simp
        · intro g hg
          rcases List.mem_cons.mp hg with rfl | hg
          · exact ⟨hb.2, hcur hb.2⟩
          · exact hgs g hg
      · rw [if_neg hb]
        have hsum : (cur.map count_words).sum + count_words q =
            (((cur ++ [q]) : List (List Char)).map count_words).sum := by
          simp
        obtain ⟨gs, hcont, hflat, hgs⟩ :=
          ih acc (cur ++ [q])
            (fun _ => by
              rcases Decidable.em (cur = []) with hc | hc
              · subst hc
                rcases le_or_lt (count_words q) tc.target_words with h | h
                · exact Or.inl (by simpa using h)
                · exact Or.inr ⟨q, by simp, h⟩
              · left
                rw [← hsum]
                have : ¬ tc.target_words <
                    (cur.map count_words).sum + count_words q := by
                  intro hx
                  exact hb ⟨hx, hc⟩
                omega)
        rw [hsum]
        refine ⟨gs, hcont, ?_, hgs⟩
        rw [hflat]
        simp

theorem count_words_nil : count_words [] = 0 := rfl

theorem count_words_strip (s : List Char) :
    count_words (stripL s) = count_words s := by
  rw [count_words_eq_length_words, count_words_eq_length_words, words_strip]

theorem pyWs_nl : pyWs '\n' = true := rfl

theorem processed_spec (text : List Char) :
    ∀ q ∈ processedParas text,
      stripL q = q ∧ q ≠ [] ∧ hasNN q = false ∧ q.getLast? ≠ some '\n' := by
  intro q hq
  rw [processedParas, List.mem_filter] at hq
  obtain ⟨hmem, hne⟩ := hq
  rw [List.mem_map] at hmem
  obtain ⟨piece, hpiece, rfl⟩ := hmem
  have hne' : stripL piece ≠ [] := by
    intro hx
    rw [hx] at hne
    simp at hne
  refine ⟨stripL_idem piece, hne', ?_, ?_⟩
  · exact hasNN_strip piece (splitP_no_sep text piece hpiece)
  · intro hx
    have := stripL_getLast_not_ws piece '\n' hx
    rw [pyWs_nl] at this
    cases this

theorem sum_count_filter_empty (l : List (List Char)) :
    (((l.filter (fun p => !p.isEmpty)).map count_words).sum : Nat) =
      ((l.map count_words).sum : Nat) := by
  induction l with
  | nil => rfl
  | cons p l ih =>
      by_cases hp : p.isEmpty
      · have hp' : p = [] := by simpa [List.isEmpty_iff] using hp
        subst hp'
        rw [List.filter_cons]
        simp [ih, count_words_nil]
      · have hp' : p.isEmpty = false := by simpa using hp
        rw [List.filter_cons]
        simp only [hp', Bool.not_false, if_true]
        simp only [List.map_cons, List.sum_cons, ih]

theorem count_words_eq_sum_processed (text : List Char) :
    count_words text = ((processedParas text).map count_words).sum := by
  have h1 : count_words text = ((splitP text).map count_words).sum := by
    conv_lhs => rw [← joinNN_splitP text]
    exact count_words_joinNN _
  have h2 : ((splitP text).map count_words).sum =
      (((splitP text).map stripL).map count_words).sum := by
    rw [List.map_map]
    congr 1
    apply List.map_congr_left
    intro piece _
    exact (count_words_strip piece).symm
  rw [h1, h2, processedParas, sum_count_filter_empty]

theorem mem_joinNN (qs : List (List Char)) (q : List Char) (c : Char)
    (hq : q ∈ qs) (hc : c ∈ q) : c ∈ joinNN qs := by
  induction qs with
  | nil => cases hq
  | cons r rest ih =>
      cases rest with
      | nil =>
          rw [List.mem_singleton] at hq
          subst hq
          rwa [joinNN_singleton]
      | cons r' rest' =>
          rw [joinNN_cons_cons]
          rcases List.mem_cons.mp hq with rfl | hq
          · exact List.mem_append.mpr (Or.inl hc)
          · refine List.mem_append.mpr (Or.inr ?_)
            simp only [List.mem_cons]
            exact Or.inr (Or.inr (by simpa using ih hq))

theorem processed_nil_of_strip_nil (text : List Char)
    (h : stripL text = []) : processedParas text = [] := by
  rw [processedParas, List.filter_eq_nil_iff]
  intro q hq
  rw [List.mem_map] at hq
  obtain ⟨piece, hpiece, rfl⟩ := hq
  have hws : ∀ c ∈ piece, pyWs c = true := by
    intro c hc
    refine all_ws_of_stripL_eq_nil text h c ?_
    rw [← joinNN_splitP text]
    exact mem_joinNN _ piece c hpiece hc
  rw [stripL_eq_nil_of_all_ws piece hws]
  simp

theorem joinNN_append_ne (a b : List (List Char)) (ha : a ≠ []) (hb : b ≠ []) :
    joinNN (a ++ b) = joinNN a ++ '\n' :: '\n' :: joinNN b := by
  induction a with
  | nil => exact absurd rfl ha
  | cons x a' ih =>
      cases a' with
      | nil =>
          cases b with
          | nil => exact absurd rfl hb
          | cons y b' =>
              rw [List.singleton_append, joinNN_cons_cons, joinNN_singleton]
      | cons x' a'' =>
          have e1 : (x :: x' :: a'') ++ b = x :: x' :: (a'' ++ b) := rfl
          rw [e1, joinNN_cons_cons, joinNN_cons_cons]
          have e2 : x' :: (a'' ++ b) = (x' :: a'') ++ b := rfl
          rw [e2, ih (by simp)]
          simp [List.append_assoc]

theorem joinNN_map_flatten (gs : List (List (List Char)))
    (h : ∀ g ∈ gs, g ≠ []) :
    joinNN (gs.map joinNN) = joinNN gs.flatten := by
  induction gs with
  | nil => rfl
  | cons g gs' ih =>
      cases gs' with
      | nil => simp [joinNN_singleton]
      | cons g' gs'' =>
          have hflat : (g' :: gs'').flatten ≠ [] := by
            rw [List.flatten_cons]
            have := h g' (by simp)
            intro hx
            rw [List.append_eq_nil] at hx
            exact this hx.1
          rw [List.map_cons, List.map_cons, joinNN_cons_cons,
            ← List.map_cons joinNN g' gs'',
            ih (fun x hx => h x (by simp [hx]))]
          exact (joinNN_append_ne g (g' ++ gs''.flatten) (h g (by simp))
            (by simpa using hflat)).symm

theorem count_words_pos (q : List Char) (hs : stripL q = q) (hne : q ≠ []) :
    1 ≤ count_words q := by
  rw [count_words_eq_length_words]
  have : words q ≠ [] := words_of_strip_ne_nil q (by rwa [hs])
  cases hw : words q with
  | nil => exact absurd hw this
  | cons w ws => simp

theorem chunk_text_eq_core (tc : TextChunker) (text : List Char)
    (h : stripL text ≠ []) :
    tc.chunk_text text = chunkCore tc (processedParas text) [] [] 0 := by
  rw [TextChunker.chunk_text, if_neg h, chunkLoop_eq_core, processedParas]

theorem processed_ne_nil (text : List Char) (h : stripL text ≠ []) :
    processedParas text ≠ [] := by
  intro hx
  have h1 := count_words_eq_sum_processed text
  rw [hx] at h1
  simp at h1
  have h2 : words text ≠ [] := words_of_strip_ne_nil text h
  rw [count_words_eq_length_words] at h1
  exact h2 (List.length_eq_zero.mp h1)

theorem count_group (W : Nat) (p : List Char) (hp : W < count_words p)
    (g : List (List Char)) (hne : g ≠ [])
    (hg : (g.map count_words).sum ≤ W ∨
      ∃ q, g = [q] ∧ W < count_words q) :
    g.count p = if joinNN g = p then 1 else 0 := by
  rcases hg with hg | ⟨q, rfl, _⟩
  · have hnm : p ∉ g := by
      intro hm
      have : count_words p ≤ (g.map count_words).sum :=
        List.single_le_sum (fun y _ => Nat.zero_le y) _
          (List.mem_map_of_mem count_words hm)
      omega
    have hj : joinNN g ≠ p := by
      intro hj
      have : count_words (joinNN g) = (g.map count_words).sum :=
        count_words_joinNN g
      rw [hj] at this
      omega
    rw [List.count_eq_zero.mpr hnm, if_neg hj]
  · rw [joinNN_singleton]
    rcases Decidable.em (q = p) with rfl | hqp
    · simp
    · rw [if_neg hqp, List.count_eq_zero.mpr (by simp [Ne.symm, hqp])]

theorem count_map_joinNN (W : Nat) (p : List Char) (hp : W < count_words p)
    (gs : List (List (List Char)))
    (hgs : ∀ g ∈ gs, g ≠ [] ∧
      ((g.map count_words).sum ≤ W ∨ ∃ q, g = [q] ∧ W < count_words q)) :
    (gs.map joinNN).count p = gs.flatten.count p := by
  induction gs with
  | nil => rfl
  | cons g gs' ih =>
      rw [List.map_cons, List.count_cons, List.flatten_cons,
        List.count_append,
        ih (fun x hx => hgs x (by simp [hx])),
        count_group W p hp g (hgs g (by simp)).1 (hgs g (by simp)).2]
      rcases Decidable.em (joinNN g = p) with he | he
      · simp [he]
        omega
      · have : (joinNN g == p) = false := by
          simp [he]
        simp [he, this]

/-! ## Claims about the chunker -/

/-- C6: for every chunker configuration and input text, the index fields of
the chunks returned by `chunk_text` are exactly `0, 1, ..., n-1` in list
order. -/
theorem c6_index_contiguity (tc : TextChunker) (text : List Char) :
    (tc.chunk_text text).map BookChunk.index =
      List.range (tc.chunk_text text).length := by
  by_cases h : stripL text = []
  · rw [TextChunker.chunk_text, if_pos h]
    rfl
  · rw [chunk_text_eq_core tc text h]
    exact chunkCore_indices tc _ [] [] 0 (by simp)

/-- C8: for every chunker configuration and text, the whole-text word count
(stored as `total_words` by `process_book_command`) equals the sum of the
`word_count` fields of the chunks returned by `chunk_text`. -/
theorem c8_total_words (tc : TextChunker) (text : List Char) :
    count_words text =
      ((tc.chunk_text text).map BookChunk.word_count).sum := by
  by_cases h : stripL text = []
  · rw [TextChunker.chunk_text, if_pos h, count_words, if_pos h]
    rfl
  · rw [chunk_text_eq_core tc text h]
    have hwc := chunkCore_wc tc (processedParas text) [] [] 0 (by simp)
    obtain ⟨gs, hcont, hflat, hgs⟩ :=
      chunkCore_master tc (processedParas text) [] [] (fun hx => absurd rfl hx)
    have hcont' : (chunkCore tc (processedParas text) [] [] 0).map
        BookChunk.content = gs.map joinNN := by simpa using hcont
    have hflat' : gs.flatten = processedParas text := by simpa using hflat
    have h1 : ((chunkCore tc (processedParas text) [] [] 0).map
        BookChunk.word_count).sum =
        ((chunkCore tc (processedParas text) [] [] 0).map
          (fun ch => count_words ch.content)).sum := by
      congr 1
      exact List.map_congr_left hwc
    rw [h1]
    have h2 : ((chunkCore tc (processedParas text) [] [] 0).map
        (fun ch => count_words ch.content)) =
        (((chunkCore tc (processedParas text) [] [] 0).map
          BookChunk.content).map count_words) := by
      rw [List.map_map]
      rfl
    rw [h2, hcont', List.map_map]
    have h3 : (gs.map (count_words ∘ joinNN)) =
        gs.map (fun g => ((g.map count_words).sum)) := by
      apply List.map_congr_left
      intro g _
      exact count_words_joinNN g
    rw [h3, count_words_eq_sum_processed, ← hflat', List.map_flatten,
      List.sum_flatten, List.map_map]
    rfl

/-- C4: every chunk respects the word budget `target_words`, except chunks
whose content is a single processed paragraph that alone exceeds the budget;
and each such oversized paragraph becomes exactly one chunk of its own,
never split (contents containing it occur exactly as often as the paragraph
occurs in the processed paragraph list). -/
theorem c4_budget (tc : TextChunker) (text : List Char) :
    (∀ ch ∈ tc.chunk_text text,
        ch.word_count ≤ tc.target_words ∨
          (ch.content ∈ processedParas text ∧
            tc.target_words < ch.word_count)) ∧
    ∀ p : List Char, tc.target_words < count_words p →
      ((tc.chunk_text text).map BookChunk.content).count p =
        (processedParas text).count p := by
  by_cases h : stripL text = []
  · constructor
    · intro ch hch
      rw [TextChunker.chunk_text, if_pos h] at hch
      cases hch
    · intro p hp
      rw [TextChunker.chunk_text, if_pos h, processed_nil_of_strip_nil text h]
      rfl
  · rw [chunk_text_eq_core tc text h]
    have hwc := chunkCore_wc tc (processedParas text) [] [] 0 (by simp)
    obtain ⟨gs, hcont, hflat, hgs⟩ :=
      chunkCore_master tc (processedParas text) [] [] (fun hx => absurd rfl hx)
    have hcont' : (chunkCore tc (processedParas text) [] [] 0).map
        BookChunk.content = gs.map joinNN := by simpa using hcont
    have hflat' : gs.flatten = processedParas text := by simpa using hflat
    constructor
    · intro ch hch
      have hm : ch.content ∈ gs.map joinNN := by
        rw [← hcont']
        exact List.mem_map_of_mem BookChunk.content hch
      rw [List.mem_map] at hm
      obtain ⟨g, hg, hgc⟩ := hm
      obtain ⟨hgne, hcase⟩ := hgs g hg
      have hw : ch.word_count = (g.map count_words).sum := by
        rw [hwc ch hch, ← hgc, count_words_joinNN]
      rcases hcase with hle | ⟨q, rfl, hq⟩
      · exact Or.inl (by omega)
      · refine Or.inr ⟨?_, ?_⟩
        · rw [← hgc, joinNN_singleton, ← hflat']
          exact List.mem_flatten.mpr ⟨[q], hg, by simp⟩
        · rw [hw]
          simpa using hq
    · intro p hp
      rw [hcont', ← hflat']
      exact count_map_joinNN tc.target_words p hp gs hgs

/-- C10: every chunk returned by `chunk_text` is a non-empty reading unit:
its content contains at least one non-empty paragraph and its word count is
at least 1. -/
theorem c10_no_empty_units (tc : TextChunker) (text : List Char) :
    ∀ ch ∈ tc.chunk_text text,
      ((splitP ch.content).map stripL).filter (fun p => !p.isEmpty) ≠ [] ∧
        1 ≤ ch.word_count := by
  intro ch hch
  by_cases h : stripL text = []
  · rw [TextChunker.chunk_text, if_pos h] at hch
    cases hch
  · rw [chunk_text_eq_core tc text h] at hch
    have hwc := chunkCore_wc tc (processedParas text) [] [] 0 (by simp)
    obtain ⟨gs, hcont, hflat, hgs⟩ :=
      chunkCore_master tc (processedParas text) [] [] (fun hx => absurd rfl hx)
    have hcont' : (chunkCore tc (processedParas text) [] [] 0).map
        BookChunk.content = gs.map joinNN := by simpa using hcont
    have hflat' : gs.flatten = processedParas text := by simpa using hflat
    have hm : ch.content ∈ gs.map joinNN := by
      rw [← hcont']
      exact List.mem_map_of_mem BookChunk.content hch
    rw [List.mem_map] at hm
    obtain ⟨g, hg, hgc⟩ := hm
    obtain ⟨hgne, _⟩ := hgs g hg
    have hmem : ∀ q ∈ g, q ∈ processedParas text := by
      intro q hq
      rw [← hflat']
      exact List.mem_flatten.mpr ⟨g, hg, hq⟩
    have hsplit : splitP ch.content = g := by
      rw [← hgc]
      exact splitP_joinNN g hgne
        (fun q hq => (processed_spec text q (hmem q hq)).2.2.1)
        (fun q hq => (processed_spec text q (hmem q hq)).2.2.2)
    constructor
    · rw [hsplit]
      have hmap : g.map stripL = g := by
        conv_rhs => rw [← List.map_id g]
        exact List.map_congr_left
          (fun q hq => (processed_spec text q (hmem q hq)).1)
      have hfil : g.filter (fun p => !p.isEmpty) = g :=
        List.filter_eq_self.mpr (fun q hq => by
          simpa [List.isEmpty_iff] using (processed_spec text q (hmem q hq)).2.1)
      rw [hmap, hfil]
      exact hgne
    · have hw : ch.word_count = (g.map count_words).sum := by
        rw [hwc ch hch, ← hgc, count_words_joinNN]
      cases hgcase : g with
      | nil => exact absurd hgcase hgne
      | cons q g' =>
          have hq := processed_spec text q (hmem q (by rw [hgcase]; simp))
          have : 1 ≤ count_words q := count_words_pos q hq.1 hq.2.1
          rw [hw, hgcase]
          simp only [List.map_cons, List.sum_cons]
          omega

/-- C5: splitting the separator-join of all chunk contents back into
paragraphs, trimming, and discarding empties reproduces exactly the
processed paragraphs of the input text — nothing dropped, duplicated, or
reordered. -/
theorem c5_coverage (tc : TextChunker) (text : List Char) :
    ((splitP (joinNN ((tc.chunk_text text).map BookChunk.content))).map
        stripL).filter (fun p => !p.isEmpty) =
      ((splitP text).map stripL).filter (fun p => !p.isEmpty) := by
  show _ = processedParas text
  by_cases h : stripL text = []
  · rw [TextChunker.chunk_text, if_pos h, processed_nil_of_strip_nil text h]
    rfl
  · rw [chunk_text_eq_core tc text h]
    obtain ⟨gs, hcont, hflat, hgs⟩ :=
      chunkCore_master tc (processedParas text) [] [] (fun hx => absurd rfl hx)
    have hcont' : (chunkCore tc (processedParas text) [] [] 0).map
        BookChunk.content = gs.map joinNN := by simpa using hcont
    have hflat' : gs.flatten = processedParas text := by simpa using hflat
    rw [hcont', joinNN_map_flatten gs (fun g hg => (hgs g hg).1), hflat',
      splitP_joinNN (processedParas text) (processed_ne_nil text h)
        (fun q hq => (processed_spec text q hq).2.2.1)
        (fun q hq => (processed_spec text q hq).2.2.2)]
    have hmap : (processedParas text).map stripL = processedParas text := by
      conv_rhs => rw [← List.map_id (processedParas text)]
      exact List.map_congr_left (fun q hq => (processed_spec text q hq).1)
    rw [hmap]
    exact List.filter_eq_self.mpr (fun q hq => by
      simpa [List.isEmpty_iff] using (processed_spec text q hq).2.1)

/-- C4 witness: with a 3-word budget and the text `"a b\n\nc d e f"`, the
first chunk fits the budget (or is an oversized single paragraph), and the
oversized paragraph `"c d e f"` occurs exactly once among the chunk
contents, as in the processed paragraphs. -/
theorem c4_budget_witness :
    (((({ target_reading_time := 3, words_per_minute := 1 } :
            TextChunker).chunk_text "a b\n\nc d e f".data).head
          (by decide)).word_count ≤
        ({ target_reading_time := 3, words_per_minute := 1 } :
          TextChunker).target_words ∨
      (((({ target_reading_time := 3, words_per_minute := 1 } :
            TextChunker).chunk_text "a b\n\nc d e f".data).head
          (by decide)).content ∈ processedParas "a b\n\nc d e f".data ∧
        ({ target_reading_time := 3, words_per_minute := 1 } :
          TextChunker).target_words <
          ((({ target_reading_time := 3, words_per_minute := 1 } :
            TextChunker).chunk_text "a b\n\nc d e f".data).head
            (by decide)).word_count)) ∧
    ((({ target_reading_time := 3, words_per_minute := 1 } :
          TextChunker).chunk_text "a b\n\nc d e f".data).map
        BookChunk.content).count "c d e f".data =
      (processedParas "a b\n\nc d e f".data).count "c d e f".data :=
  ⟨(c4_budget { target_reading_time := 3, words_per_minute := 1 }
      "a b\n\nc d e f".data).1 _ (List.head_mem (by decide)),
   (c4_budget { target_reading_time := 3, words_per_minute := 1 }
      "a b\n\nc d e f".data).2 _ (by decide)⟩

/-- C10 witness: the first chunk produced from `"a b\n\nc d e f"` with a
3-word budget has a non-empty paragraph and word count at least 1. -/
theorem c10_no_empty_units_witness :
    ((splitP ((({ target_reading_time := 3, words_per_minute := 1 } :
            TextChunker).chunk_text "a b\n\nc d e f".data).head
          (by decide)).content).map
        stripL).filter (fun p => !p.isEmpty) ≠ [] ∧
      1 ≤ ((({ target_reading_time := 3, words_per_minute := 1 } :
            TextChunker).chunk_text "a b\n\nc d e f".data).head
          (by decide)).word_count :=
  c10_no_empty_units { target_reading_time := 3, words_per_minute := 1 }
    "a b\n\nc d e f".data _ (List.head_mem (by decide))

/-! ## Lemmas about splitLines and joinLines -/

theorem splitLines_ne_nil (z : List Char) : splitLines z ≠ [] := by
  cases z with
  | nil => simp [splitLines]
  | cons c rest =>
      rw [splitLines]
      by_cases hc : c = '\n'
      · simp [hc]
      · rw [if_neg hc]
        cases splitLines rest <;> simp [consHead]

theorem joinLines_nil : joinLines [] = [] := rfl

theorem joinLines_singleton (q : List Char) : joinLines [q] = q := by
  simp [joinLines, List.intercalate]

theorem joinLines_cons_cons (q r : List Char) (rest : List (List Char)) :
    joinLines (q :: r :: rest) = q ++ '\n' :: joinLines (r :: rest) := by
  simp [joinLines, List.intercalate]

theorem joinLines_consHead (c : Char) (L : List (List Char)) (h : L ≠ []) :
    joinLines (consHead c L) = c :: joinLines L := by
  cases L with
  | nil => exact absurd rfl h
  | cons p ps =>
      cases ps with
      | nil => rw [consHead, joinLines_singleton, joinLines_singleton]
      | cons r rest =>
          rw [consHead, joinLines_cons_cons, joinLines_cons_cons,
            List.cons_append]

theorem joinLines_splitLines (s : List Char) :
    joinLines (splitLines s) = s := by
  induction s with
  | nil => rfl
  | cons c rest ih =>
      rw [splitLines]
      by_cases hc : c = '\n'
      · rw [if_pos hc]
        cases hs : splitLines rest with
        | nil => exact absurd hs (splitLines_ne_nil rest)
        | cons p ps =>
            rw [joinLines_cons_cons, ← hs, ih, List.nil_append, hc]
      · rw [if_neg hc, joinLines_consHead c _ (splitLines_ne_nil rest), ih]

theorem splitLines_no_nl (z : List Char) :
    ∀ l ∈ splitLines z, '\n' ∉ l := by
  induction z with
  | nil =>
      intro l hl
      simp [splitLines] at hl
      simp [hl]
  | cons c rest ih =>
      intro l hl
      rw [splitLines] at hl
      by_cases hc : c = '\n'
      · rw [if_pos hc] at hl
        rcases List.mem_cons.mp hl with rfl | hl
        · simp
        · exact ih l hl
      · rw [if_neg hc] at hl
        cases hs : splitLines rest with
        | nil => exact absurd hs (splitLines_ne_nil rest)
        | cons p ps =>
            rw [hs, consHead] at hl
            rcases List.mem_cons.mp hl with rfl | hl
            · intro hmem
              rcases List.mem_cons.mp hmem with he | he
              · exact hc he.symm
              · exact ih p (by rw [hs]; simp) he
            · exact ih l (by rw [hs]; simp [hl])

/-! ## Lemmas about squeezeNl -/

theorem squeezeNl_head (z : List Char) :
    (squeezeNl z).head? = z.head? := by
  induction z using squeezeNl.induct with
  | case1 => simp [squeezeNl]
  | case2 c => simp [squeezeNl]
  | case3 c d s h ih =>
      obtain ⟨rfl, rfl⟩ := h
      rw [squeezeNl, if_pos ⟨rfl, rfl⟩]
      rfl
  | case4 c d s h ih =>
      rw [squeezeNl, if_neg h]
      rfl

theorem squeezeNl_mem (z : List Char) (c : Char) (hc : c ∈ squeezeNl z) :
    c ∈ z := by
  induction z using squeezeNl.induct with
  | case1 => simpa [squeezeNl] using hc
  | case2 e => simpa [squeezeNl] using hc
  | case3 e d s h ih =>
      obtain ⟨rfl, rfl⟩ := h
      rw [squeezeNl, if_pos ⟨rfl, rfl⟩] at hc
      rcases List.mem_cons.mp hc with rfl | hc
      · simp
      · rcases List.mem_cons.mp hc with rfl | hc
        · simp
        · have := ih hc
          have h2 : c ∈ s := (List.dropWhile_suffix _).subset this
          simp [h2]
  | case4 e d s h ih =>
      rw [squeezeNl, if_neg h] at hc
      rcases List.mem_cons.mp hc with rfl | hc
      · simp
      · have := ih hc
        simp at this
        rcases this with rfl | h2
        · simp
        · simp [h2]

/-- Scan for three consecutive newlines. -/
def hasNl3 : List Char → Bool
  | a :: b :: c :: s => (a = '\n' && b = '\n' && c = '\n') || hasNl3 (b :: c :: s)
  | _ => false

theorem hasNl3_tail (c : Char) (s : List Char)
    (h : hasNl3 (c :: s) = false) : hasNl3 s = false := by
  cases s with
  | nil => rfl
  | cons d s' =>
      cases s' with
      | nil => rfl
      | cons e s'' =>
          rw [show hasNl3 (c :: d :: e :: s'') =
            ((c = '\n' && d = '\n' && e = '\n') || hasNl3 (d :: e :: s''))
            from rfl] at h
          exact (Bool.or_eq_false_iff.mp h).2

theorem hasNl3_cons (c : Char) (w : List Char) (hw : hasNl3 w = false)
    (hcd : w = [] ∨ ∃ d t, w = d :: t ∧ ¬(c = '\n' ∧ d = '\n')) :
    hasNl3 (c :: w) = false := by
  rcases hcd with rfl | ⟨d, t, rfl, hcd⟩
  · rfl
  · cases t with
    | nil => rfl
    | cons f t' =>
        rw [show hasNl3 (c :: d :: f :: t') =
          ((c = '\n' && d = '\n' && f = '\n') || hasNl3 (d :: f :: t'))
          from rfl, Bool.or_eq_false_iff]
        refine ⟨?_, hw⟩
        rcases Decidable.em (c = '\n') with hc | hc
        · rcases Decidable.em (d = '\n') with hd | hd
          · exact absurd ⟨hc, hd⟩ hcd
          · simp [hd]
        · simp [hc]

theorem hasNl3_append_left (a : List Char) (b : List Char)
    (h : hasNl3 (a ++ b) = false) : hasNl3 a = false := by
  induction a using hasNl3.induct with
  | case1 x y z s ih =>
      rw [show (x :: y :: z :: s) ++ b = x :: y :: z :: (s ++ b) from rfl,
        show hasNl3 (x :: y :: z :: (s ++ b)) =
          ((x = '\n' && y = '\n' && z = '\n') || hasNl3 (y :: z :: (s ++ b)))
          from rfl] at h
      obtain ⟨h1, h2⟩ := Bool.or_eq_false_iff.mp h
      rw [show hasNl3 (x :: y :: z :: s) =
        ((x = '\n' && y = '\n' && z = '\n') || hasNl3 (y :: z :: s))
        from rfl, Bool.or_eq_false_iff]
      exact ⟨h1, ih h2⟩
  | case2 x hx =>
      cases x with
      | nil => rfl
      | cons u v =>
          cases v with
          | nil => rfl
          | cons u' v' =>
              cases v' with
              | nil => rfl
              | cons u'' v'' => exact absurd rfl (hx u u' u'' v'')

theorem hasNl3_dropWhile (p : Char → Bool) (z : List Char)
    (h : hasNl3 z = false) : hasNl3 (z.dropWhile p) = false := by
  induction z with
  | nil => rfl
  | cons c z' ih =>
      by_cases hc : p c
      · rw [List.dropWhile_cons_of_pos hc]
        exact ih (hasNl3_tail c z' h)
      · rw [List.dropWhile_cons_of_neg hc]
        exact h

theorem hasNl3_two_nl (w : List Char) (hw : hasNl3 w = false)
    (hh : ∀ e t, w = e :: t → e ≠ '\n') :
    hasNl3 ('\n' :: '\n' :: w) = false := by
  cases w with
  | nil => rfl
  | cons e t =>
      rw [show hasNl3 ('\n' :: '\n' :: e :: t) =
        (('\n' = '\n' && '\n' = '\n' && e = '\n') || hasNl3 ('\n' :: e :: t))
        from rfl, Bool.or_eq_false_iff]
      constructor
      · simp [hh e t rfl]
      · exact hasNl3_cons '\n' (e :: t) hw
          (Or.inr ⟨e, t, rfl, fun hx => hh e t rfl hx.2⟩)

theorem squeeze_no_triple (z : List Char) :
    hasNl3 (squeezeNl z) = false := by
  induction z using squeezeNl.induct with
  | case1 => simp [squeezeNl]; rfl
  | case2 c => simp [squeezeNl]; rfl
  | case3 c d s h ih =>
      obtain ⟨rfl, rfl⟩ := h
      rw [squeezeNl, if_pos ⟨rfl, rfl⟩]
      refine hasNl3_two_nl _ ih ?_
      intro e t het hne
      have h1 : (squeezeNl (s.dropWhile (fun x => x = '\n'))).head? =
          (s.dropWhile (fun x => x = '\n')).head? := squeezeNl_head _
      rw [het] at h1
      cases hdw : s.dropWhile (fun x => x = '\n') with
      | nil => rw [hdw] at h1; cases h1
      | cons f t' =>
          rw [hdw] at h1
          simp at h1
          have hf := dropWhile_head_false (fun x => decide (x = '\n')) s f t'
            (by simpa using hdw)
          rw [← h1] at hf
          rw [hne] at hf
          simp at hf
  | case4 c d s h ih =>
      rw [squeezeNl, if_neg h]
      have h1 : (squeezeNl (d :: s)).head? = some d := squeezeNl_head _
      cases hw : squeezeNl (d :: s) with
      | nil => rw [hw] at h1; cases h1
      | cons e t =>
          rw [hw] at h1 ih
          simp at h1
          exact hasNl3_cons c (e :: t) ih
            (Or.inr ⟨e, t, rfl, fun hx => h ⟨hx.1, by rw [← h1]; exact hx.2⟩⟩)

theorem no_triple_squeeze_id (z : List Char) (h : hasNl3 z = false) :
    squeezeNl z = z := by
  induction z using squeezeNl.induct with
  | case1 => simp [squeezeNl]
  | case2 c => simp [squeezeNl]
  | case3 c d s hcd ih =>
      obtain ⟨rfl, rfl⟩ := hcd
      rw [squeezeNl, if_pos ⟨rfl, rfl⟩]
      cases s with
      | nil => simp [squeezeNl]
      | cons e t =>
          have he : ¬ e = '\n' := by
            intro he
            subst he
            rw [show hasNl3 ('\n' :: '\n' :: '\n' :: t) =
              (('\n' = '\n' && '\n' = '\n' && '\n' = '\n') ||
                hasNl3 ('\n' :: '\n' :: t)) from rfl] at h
            simp at h
          have hdw : (e :: t).dropWhile (fun x => x = '\n') = e :: t :=
            List.dropWhile_cons_of_neg (by simpa using he)
          rw [hdw] at ih ⊢
          rw [ih (hasNl3_tail _ _ (hasNl3_tail _ _ h))]
  | case4 c d s hcd ih =>
      rw [squeezeNl, if_neg hcd, ih (hasNl3_tail _ _ h)]

theorem hasNl3_rstrip (p : Char → Bool) (z : List Char)
    (h : hasNl3 z = false) : hasNl3 (rstripL p z) = false := by
  obtain ⟨t, hz, _⟩ := rstripL_decomp p z
  exact hasNl3_append_left _ t (hz ▸ h)

theorem hasNl3_strip (z : List Char) (h : hasNl3 z = false) :
    hasNl3 (stripL z) = false :=
  hasNl3_rstrip pyWs _ (hasNl3_dropWhile pyWs z h)

/-! ## Lemmas about normQuote -/

theorem normQuote_eq_self (c : Char) (h1 : ¬c = Char.ofNat 8220)
    (h2 : ¬c = Char.ofNat 8221) (h3 : ¬c = '"') (h4 : ¬c = Char.ofNat 8216)
    (h5 : ¬c = Char.ofNat 8217) (h6 : ¬c = Char.ofNat 39) :
    normQuote c = c := by
  simp [normQuote, h1, h2, h3, h4, h5, h6]

theorem normQuote_idem (c : Char) :
    normQuote (normQuote c) = normQuote c := by
  by_cases h1 : c = Char.ofNat 8220
  · subst h1; decide
  by_cases h2 : c = Char.ofNat 8221
  · subst h2; decide
  by_cases h3 : c = '"'
  · subst h3; decide
  by_cases h4 : c = Char.ofNat 8216
  · subst h4; decide
  by_cases h5 : c = Char.ofNat 8217
  · subst h5; decide
  by_cases h6 : c = Char.ofNat 39
  · subst h6; decide
  rw [normQuote_eq_self c h1 h2 h3 h4 h5 h6,
    normQuote_eq_self c h1 h2 h3 h4 h5 h6]

theorem pyWs_normQuote (c : Char) : pyWs (normQuote c) = pyWs c := by
  by_cases h1 : c = Char.ofNat 8220
  · subst h1; decide
  by_cases h2 : c = Char.ofNat 8221
  · subst h2; decide
  by_cases h3 : c = '"'
  · subst h3; decide
  by_cases h4 : c = Char.ofNat 8216
  · subst h4; decide
  by_cases h5 : c = Char.ofNat 8217
  · subst h5; decide
  by_cases h6 : c = Char.ofNat 39
  · subst h6; decide
  rw [normQuote_eq_self c h1 h2 h3 h4 h5 h6]

theorem blankTab_normQuote (c : Char) :
    isBlankTab (normQuote c) = isBlankTab c := by
  by_cases h1 : c = Char.ofNat 8220
  · subst h1; decide
  by_cases h2 : c = Char.ofNat 8221
  · subst h2; decide
  by_cases h3 : c = '"'
  · subst h3; decide
  by_cases h4 : c = Char.ofNat 8216
  · subst h4; decide
  by_cases h5 : c = Char.ofNat 8217
  · subst h5; decide
  by_cases h6 : c = Char.ofNat 39
  · subst h6; decide
  rw [normQuote_eq_self c h1 h2 h3 h4 h5 h6]

theorem nl_normQuote (c : Char) :
    decide (normQuote c = '\n') = decide (c = '\n') := by
  by_cases h1 : c = Char.ofNat 8220
  · subst h1; decide
  by_cases h2 : c = Char.ofNat 8221
  · subst h2; decide
  by_cases h3 : c = '"'
  · subst h3; decide
  by_cases h4 : c = Char.ofNat 8216
  · subst h4; decide
  by_cases h5 : c = Char.ofNat 8217
  · subst h5; decide
  by_cases h6 : c = Char.ofNat 39
  · subst h6; decide
  rw [normQuote_eq_self c h1 h2 h3 h4 h5 h6]

theorem tab_normQuote (c : Char) (h : normQuote c = '\t') : c = '\t' := by
  by_cases h1 : c = Char.ofNat 8220
  · subst h1; exact absurd h (by decide)
  by_cases h2 : c = Char.ofNat 8221
  · subst h2; exact absurd h (by decide)
  by_cases h3 : c = '"'
  · subst h3; exact absurd h (by decide)
  by_cases h4 : c = Char.ofNat 8216
  · subst h4; exact absurd h (by decide)
  by_cases h5 : c = Char.ofNat 8217
  · subst h5; exact absurd h (by decide)
  by_cases h6 : c = Char.ofNat 39
  · subst h6; exact absurd h (by decide)
  rw [normQuote_eq_self c h1 h2 h3 h4 h5 h6] at h
  exact h

/-! ## Pairwise character conditions -/

/-- Check a pairwise condition on every pair of adjacent characters. -/
def chainOK (P : Char → Char → Bool) : List Char → Bool
  | a :: b :: s => P a b && chainOK P (b :: s)
  | _ => true

/-- No two adjacent characters are both space-or-tab (after `clean_text`,
every `[ \t]` run is a single space). -/
def noDouble (a b : Char) : Bool := !(isBlankTab a && isBlankTab b)

/-- Around every newline, the neighbouring character is a newline or
non-whitespace (lines of `clean_text` output carry no leading or trailing
whitespace). -/
def goodNl (a b : Char) : Bool :=
  (!(decide (a = '\n')) || decide (b = '\n') || !(pyWs b)) &&
  (!(decide (b = '\n')) || decide (a = '\n') || !(pyWs a))

theorem chainOK_nil (P : Char → Char → Bool) : chainOK P [] = true := rfl

theorem chainOK_single (P : Char → Char → Bool) (a : Char) :
    chainOK P [a] = true := rfl

theorem chainOK_cons_cons (P : Char → Char → Bool) (a b : Char)
    (s : List Char) :
    chainOK P (a :: b :: s) = (P a b && chainOK P (b :: s)) := rfl

theorem chainOK_tail (P : Char → Char → Bool) (c : Char) (s : List Char)
    (h : chainOK P (c :: s) = true) : chainOK P s = true := by
  cases s with
  | nil => rfl
  | cons d s' =>
      rw [chainOK_cons_cons] at h
      exact (Bool.and_eq_true_iff.mp h).2

theorem chainOK_right (P : Char → Char → Bool) (x y : List Char)
    (h : chainOK P (x ++ y) = true) : chainOK P y = true := by
  induction x with
  | nil => exact h
  | cons c x' ih => exact ih (chainOK_tail P c _ h)

theorem chainOK_left (P : Char → Char → Bool) (x y : List Char)
    (h : chainOK P (x ++ y) = true) : chainOK P x = true := by
  induction x with
  | nil => rfl
  | cons a x' ih =>
      cases x' with
      | nil => rfl
      | cons b x'' =>
          rw [chainOK_cons_cons]
          rw [show (a :: b :: x'') ++ y = a :: b :: (x'' ++ y) from rfl,
            chainOK_cons_cons] at h
          obtain ⟨h1, h2⟩ := Bool.and_eq_true_iff.mp h
          rw [h1, ih h2]
          rfl

theorem chainOK_cons_of (P : Char → Char → Bool) (a : Char) (w : List Char)
    (hw : chainOK P w = true)
    (hp : w = [] ∨ ∃ b t, w = b :: t ∧ P a b = true) :
    chainOK P (a :: w) = true := by
  rcases hp with rfl | ⟨b, t, rfl, hab⟩
  · rfl
  · rw [chainOK_cons_cons, hab, hw]
    rfl

theorem chainOK_append_of (P : Char → Char → Bool) (x y : List Char)
    (hx : chainOK P x = true) (hy : chainOK P y = true)
    (hseam : ∀ a b, x.getLast? = some a → y.head? = some b → P a b = true) :
    chainOK P (x ++ y) = true := by
  induction x with
  | nil => exact hy
  | cons a x' ih =>
      cases x' with
      | nil =>
          refine chainOK_cons_of P a y hy ?_
          cases y with
          | nil => exact Or.inl rfl
          | cons b t => exact Or.inr ⟨b, t, rfl, hseam a b rfl rfl⟩
      | cons b x'' =>
          rw [show (a :: b :: x'') ++ y = a :: b :: (x'' ++ y) from rfl,
            chainOK_cons_cons] at *
          obtain ⟨h1, h2⟩ := Bool.and_eq_true_iff.mp hx
          rw [h1]
          simp only [Bool.true_and]
          exact ih h2 (fun u v hu hv => hseam u v
            (by rw [List.getLast?_cons_cons]; exact hu) hv)

theorem chainOK_map (P : Char → Char → Bool) (f : Char → Char)
    (hf : ∀ a b, P (f a) (f b) = P a b) (x : List Char) :
    chainOK P (x.map f) = chainOK P x := by
  induction x with
  | nil => rfl
  | cons a x' ih =>
      cases x' with
      | nil => rfl
      | cons b s =>
          rw [List.map_cons, List.map_cons, chainOK_cons_cons,
            chainOK_cons_cons, hf, ← List.map_cons f b s, ih]

theorem chainOK_nl_dropWhile (P : Char → Char → Bool)
    (hP : P '\n' '\n' = true) (s : List Char)
    (h : chainOK P ('\n' :: s) = true) :
    chainOK P ('\n' :: s.dropWhile (fun e => e = '\n')) = true := by
  induction s with
  | nil => rfl
  | cons f s' ih =>
      by_cases hf : f = '\n'
      · subst hf
        rw [List.dropWhile_cons_of_pos (by simp)]
        exact ih (chainOK_tail P '\n' _ h)
      · rw [List.dropWhile_cons_of_neg (by simpa using hf)]
        exact h

theorem chainOK_squeeze (P : Char → Char → Bool) (hP : P '\n' '\n' = true)
    (z : List Char) (h : chainOK P z = true) :
    chainOK P (squeezeNl z) = true := by
  induction z using squeezeNl.induct with
  | case1 => simp [squeezeNl]; rfl
  | case2 c => simp [squeezeNl]; rfl
  | case3 c d s hcd ih =>
      obtain ⟨rfl, rfl⟩ := hcd
      rw [squeezeNl, if_pos ⟨rfl, rfl⟩]
      have hs : chainOK P ('\n' :: s) = true := chainOK_tail P '\n' _ h
      have hs' : chainOK P
          ('\n' :: s.dropWhile (fun e => e = '\n')) = true :=
        chainOK_nl_dropWhile P hP s hs
      rw [chainOK_cons_cons, hP, Bool.true_and]
      cases hw : squeezeNl (s.dropWhile (fun e => e = '\n')) with
      | nil => rfl
      | cons e t =>
          have hhead : (s.dropWhile (fun e => e = '\n')).head? = some e := by
            rw [← squeezeNl_head, hw]
            rfl
          cases hdw : s.dropWhile (fun e => e = '\n') with
          | nil => rw [hdw] at hhead; cases hhead
          | cons e' s'' =>
              rw [hdw] at hhead
              simp at hhead
              subst hhead
              rw [hdw] at hs'
              rw [chainOK_cons_cons] at hs' ⊢
              obtain ⟨hp1, hp2⟩ := Bool.and_eq_true_iff.mp hs'
              rw [hp1, Bool.true_and, ← hw]
              exact ih (by rw [hdw]; exact hp2)
  | case4 c d s hcd ih =>
      rw [squeezeNl, if_neg hcd]
      rw [chainOK_cons_cons] at h
      obtain ⟨h1, h2⟩ := Bool.and_eq_true_iff.mp h
      have hhead : (squeezeNl (d :: s)).head? = some d := squeezeNl_head _
      cases hw : squeezeNl (d :: s) with
      | nil => rfl
      | cons e t =>
          rw [hw] at hhead
          simp at hhead
          subst hhead
          rw [chainOK_cons_cons, h1, Bool.true_and, ← hw]
          exact ih h2

/-! ## Lemmas about collapseWs -/

theorem collapse_nil : collapseWs [] = [] := by simp [collapseWs]

theorem collapse_cons_pos (c : Char) (s : List Char)
    (h : isBlankTab c = true) :
    collapseWs (c :: s) = ' ' :: collapseWs (s.dropWhile isBlankTab) := by
  rw [collapseWs, if_pos h]

theorem collapse_cons_neg (c : Char) (s : List Char)
    (h : isBlankTab c = false) :
    collapseWs (c :: s) = c :: collapseWs s := by
  rw [collapseWs, if_neg (by simp [h])]

theorem collapse_no_tab (x : List Char) : '\t' ∉ collapseWs x := by
  induction x using collapseWs.induct with
  | case1 => simp [collapse_nil]
  | case2 c s h ih =>
      rw [collapse_cons_pos c s h]
      intro hmem
      rcases List.mem_cons.mp hmem with he | he
      · cases he
      · exact ih he
  | case3 c s h ih =>
      rw [collapse_cons_neg c s (by simpa using h)]
      intro hmem
      rcases List.mem_cons.mp hmem with he | he
      · rw [← he] at h
        exact h (by decide)
      · exact ih he

theorem collapse_mem (x : List Char) (c : Char) (hc : c ∈ collapseWs x) :
    c = ' ' ∨ c ∈ x := by
  induction x using collapseWs.induct with
  | case1 => rw [collapse_nil] at hc; cases hc
  | case2 d s h ih =>
      rw [collapse_cons_pos d s h] at hc
      rcases List.mem_cons.mp hc with he | he
      · exact Or.inl he
      · rcases ih he with he' | he'
        · exact Or.inl he'
        · exact Or.inr (by
            simp only [List.mem_cons]
            exact Or.inr ((List.dropWhile_suffix isBlankTab).subset he'))
  | case3 d s h ih =>
      rw [collapse_cons_neg d s (by simpa using h)] at hc
      rcases List.mem_cons.mp hc with he | he
      · exact Or.inr (by simp [he])
      · rcases ih he with he' | he'
        · exact Or.inl he'
        · exact Or.inr (by simp [he'])

theorem collapse_ne_nil (x : List Char) (h : x ≠ []) : collapseWs x ≠ [] := by
  cases x with
  | nil => exact absurd rfl h
  | cons c s =>
      by_cases hc : isBlankTab c
      · rw [collapse_cons_pos c s hc]
        simp
      · rw [collapse_cons_neg c s (by simpa using hc)]
        simp

theorem collapse_head (x : List Char) (a : Char) (hx : x.head? = some a)
    (ha : isBlankTab a = false) : (collapseWs x).head? = some a := by
  cases x with
  | nil => cases hx
  | cons c s =>
      have hca : c = a := by
        injection hx
      subst hca
      rw [collapse_cons_neg c s ha]
      rfl

theorem getLast_cons_of_ne (x : Char) (w : List Char) (h : w ≠ []) :
    (x :: w).getLast? = w.getLast? := by
  cases w with
  | nil => exact absurd rfl h
  | cons d t => exact List.getLast?_cons_cons

theorem dropWhile_keep_last (p : Char → Bool) (s : List Char) (a : Char)
    (hl : s.getLast? = some a) (ha : p a = false) :
    (s.dropWhile p).getLast? = some a ∧ s.dropWhile p ≠ [] := by
  induction s with
  | nil => cases hl
  | cons c s' ih =>
      by_cases hc : p c
      · rw [List.dropWhile_cons_of_pos hc]
        have hne : s' ≠ [] := by
          intro hx
          subst hx
          have hca : c = a := by injection hl
          subst hca
          rw [hc] at ha
          cases ha
        refine ih ?_
        rw [← getLast_cons_of_ne c s' hne]
        exact hl
      · rw [List.dropWhile_cons_of_neg hc]
        exact ⟨hl, by simp⟩

theorem collapse_getLast (x : List Char) (a : Char)
    (hl : x.getLast? = some a) (ha : isBlankTab a = false) :
    (collapseWs x).getLast? = some a := by
  induction x using collapseWs.induct with
  | case1 => cases hl
  | case2 c s h ih =>
      rw [collapse_cons_pos c s h]
      have hne : s ≠ [] := by
        intro hx
        subst hx
        have hca : c = a := by injection hl
        subst hca
        rw [h] at ha
        cases ha
      have hls : s.getLast? = some a := by
        rw [← getLast_cons_of_ne c s hne]
        exact hl
      obtain ⟨h1, _⟩ := dropWhile_keep_last isBlankTab s a hls ha
      have h3 := ih h1
      rw [getLast_cons_of_ne ' ' _ ?_]
      · exact h3
      · intro hx
        rw [hx] at h3
        cases h3
  | case3 c s h ih =>
      rw [collapse_cons_neg c s (by simpa using h)]
      by_cases hsn : s = []
      · subst hsn
        rw [collapse_nil]
        exact hl
      · have hls : s.getLast? = some a := by
          rw [← getLast_cons_of_ne c s hsn]
          exact hl
        have h3 := ih hls
        rw [getLast_cons_of_ne c _ ?_]
        · exact h3
        · intro hx
          rw [hx] at h3
          cases h3

theorem collapse_noDouble (x : List Char) :
    chainOK noDouble (collapseWs x) = true := by
  induction x using collapseWs.induct with
  | case1 => rw [collapse_nil]; rfl
  | case2 c s h ih =>
      rw [collapse_cons_pos c s h]
      refine chainOK_cons_of noDouble ' ' _ ih ?_
      cases hw : collapseWs (s.dropWhile isBlankTab) with
      | nil => exact Or.inl rfl
      | cons e t =>
          refine Or.inr ⟨e, t, rfl, ?_⟩
          have hhead : (s.dropWhile isBlankTab).head? = some e := by
            cases hdw : s.dropWhile isBlankTab with
            | nil => rw [hdw, collapse_nil] at hw; cases hw
            | cons f t' =>
                have hf : isBlankTab f = false :=
                  dropWhile_head_false isBlankTab s f t' hdw
                rw [hdw, collapse_cons_neg f t' hf] at hw
                injection hw with hw1 _
                rw [hw1]
                rfl
          cases hdw : s.dropWhile isBlankTab with
          | nil => rw [hdw] at hhead; cases hhead
          | cons f t' =>
              rw [hdw] at hhead
              have hf : isBlankTab f = false :=
                dropWhile_head_false isBlankTab s f t' hdw
              have hef : e = f := by injection hhead; simp_all
              rw [noDouble, hef, hf]
              simp
  | case3 c s h ih =>
      rw [collapse_cons_neg c s (by simpa using h)]
      refine chainOK_cons_of noDouble c _ ih ?_
      cases hw : collapseWs s with
      | nil => exact Or.inl rfl
      | cons e t =>
          refine Or.inr ⟨e, t, rfl, ?_⟩
          rw [noDouble]
          have hc : isBlankTab c = false := by simpa using h
          rw [hc]
          simp

theorem collapse_id (l : List Char) (htab : '\t' ∉ l)
    (hnd : chainOK noDouble l = true) : collapseWs l = l := by
  induction l with
  | nil => exact collapse_nil
  | cons c t ih =>
      by_cases hc : isBlankTab c
      · have hsp : c = ' ' := by
          have h1 : c = ' ' ∨ c = '\t' := by simpa [isBlankTab] using hc
          rcases h1 with h1 | h1
          · exact h1
          · exfalso
            apply htab
            rw [h1]
            simp
        rw [collapse_cons_pos c t hc]
        have hdw : t.dropWhile isBlankTab = t := by
          cases t with
          | nil => rfl
          | cons d t' =>
              refine List.dropWhile_cons_of_neg ?_
              rw [chainOK_cons_cons] at hnd
              obtain ⟨h1, _⟩ := Bool.and_eq_true_iff.mp hnd
              rw [noDouble, hc] at h1
              simp at h1
              simp [h1]
        rw [hdw, hsp, ih (fun hm => htab (by simp [hm]))
          (chainOK_tail noDouble c t hnd)]
      · rw [collapse_cons_neg c t (by simpa using hc),
          ih (fun hm => htab (by simp [hm])) (chainOK_tail noDouble c t hnd)]

theorem chainOK_goodNl_of_no_nl (l : List Char) (h : '\n' ∉ l) :
    chainOK goodNl l = true := by
  induction l with
  | nil => rfl
  | cons a t ih =>
      refine chainOK_cons_of goodNl a _ (ih (fun hm => h (by simp [hm]))) ?_
      cases t with
      | nil => exact Or.inl rfl
      | cons b t' =>
          refine Or.inr ⟨b, t', rfl, ?_⟩
          have ha : ¬ a = '\n' := fun hx => h (by simp [hx])
          have hb : ¬ b = '\n' := fun hx => h (by simp [hx])
          rw [goodNl]
          simp [ha, hb]

theorem blankTab_pyWs (c : Char) (h : isBlankTab c = true) :
    pyWs c = true := by
  have h1 : c = ' ' ∨ c = '\t' := by simpa [isBlankTab] using h
  rcases h1 with rfl | rfl <;> decide

theorem noDouble_normQuote (a b : Char) :
    noDouble (normQuote a) (normQuote b) = noDouble a b := by
  rw [noDouble, noDouble, blankTab_normQuote, blankTab_normQuote]

theorem goodNl_normQuote (a b : Char) :
    goodNl (normQuote a) (normQuote b) = goodNl a b := by
  rw [goodNl, goodNl, nl_normQuote, nl_normQuote, pyWs_normQuote,
    pyWs_normQuote]

theorem noDouble_nl_left (a : Char) : noDouble '\n' a = true := by
  rw [noDouble]
  simp [isBlankTab]

theorem noDouble_nl_right (a : Char) : noDouble a '\n' = true := by
  rw [noDouble]
  simp [isBlankTab]

theorem goodNl_nl_nl : goodNl '\n' '\n' = true := by decide

theorem goodNl_right_of (a : Char) (h : pyWs a = false) :
    goodNl a '\n' = true := by
  rw [goodNl]
  simp [h]

theorem goodNl_left_of (a : Char) (h : pyWs a = false) :
    goodNl '\n' a = true := by
  rw [goodNl]
  simp [h]

theorem goodNl_left_elim (a : Char) (h : goodNl '\n' a = true)
    (ha : ¬ a = '\n') : pyWs a = false := by
  rw [goodNl] at h
  simp [ha] at h
  exact h

theorem goodNl_right_elim (a : Char) (h : goodNl a '\n' = true)
    (ha : ¬ a = '\n') : pyWs a = false := by
  rw [goodNl] at h
  simp [ha] at h
  exact h

theorem chainOK_strip (P : Char → Char → Bool) (z : List Char)
    (h : chainOK P z = true) : chainOK P (stripL z) = true := by
  obtain ⟨t1, t2, hz, _, _⟩ := stripL_decomp z
  rw [hz] at h
  exact chainOK_left P _ t2 (chainOK_right P t1 _ (by rwa [List.append_assoc] at h))

theorem chainOK_pair (P : Char → Char → Bool) (r x y : List Char)
    (a b : Char) (h : chainOK P r = true) (hr : r = x ++ a :: b :: y) :
    P a b = true := by
  subst hr
  have h2 := chainOK_right P x _ h
  rw [chainOK_cons_cons] at h2
  exact (Bool.and_eq_true_iff.mp h2).1

theorem mem_joinLines (ls : List (List Char)) (c : Char)
    (hc : c ∈ joinLines ls) : c = '\n' ∨ ∃ l ∈ ls, c ∈ l := by
  induction ls with
  | nil => cases hc
  | cons l rest ih =>
      cases rest with
      | nil =>
          rw [joinLines_singleton] at hc
          exact Or.inr ⟨l, by simp, hc⟩
      | cons r' rest' =>
          rw [joinLines_cons_cons] at hc
          rcases List.mem_append.mp hc with hm | hm
          · exact Or.inr ⟨l, by simp, hm⟩
          · rcases List.mem_cons.mp hm with rfl | hm
            · exact Or.inl rfl
            · rcases ih hm with he | ⟨l', hl', hcl⟩
              · exact Or.inl he
              · exact Or.inr ⟨l', by simp [hl'], hcl⟩

theorem chainOK_joinLines (P : Char → Char → Bool)
    (hPnl : P '\n' '\n' = true) (ls : List (List Char))
    (hline : ∀ l ∈ ls, chainOK P l = true)
    (hL : ∀ l ∈ ls, ∀ a, l.getLast? = some a → P a '\n' = true)
    (hR : ∀ l ∈ ls, ∀ a, l.head? = some a → P '\n' a = true) :
    chainOK P (joinLines ls) = true ∧
      chainOK P ('\n' :: joinLines ls) = true := by
  induction ls with
  | nil => exact ⟨rfl, rfl⟩
  | cons l rest ih =>
      have hcons : chainOK P ('\n' :: l) = true := by
        refine chainOK_cons_of P '\n' l (hline l (by simp)) ?_
        cases hl : l with
        | nil => exact Or.inl rfl
        | cons b t =>
            exact Or.inr ⟨b, t, rfl, hR l (by simp) b (by rw [hl]; rfl)⟩
      cases rest with
      | nil =>
          rw [joinLines_singleton]
          exact ⟨hline l (by simp), hcons⟩
      | cons r' rest' =>
          obtain ⟨ih1, ih2⟩ := ih (fun x hx => hline x (by simp [hx]))
            (fun x hx => hL x (by simp [hx])) (fun x hx => hR x (by simp [hx]))
          rw [joinLines_cons_cons]
          constructor
          · refine chainOK_append_of P l _ (hline l (by simp)) ih2 ?_
            intro u v hu hv
            have hv' : v = '\n' := by injection hv with hv'; exact hv'.symm
            subst hv'
            exact hL l (by simp) u hu
          · rw [show '\n' :: (l ++ '\n' :: joinLines (r' :: rest')) =
              ('\n' :: l) ++ '\n' :: joinLines (r' :: rest') from rfl]
            refine chainOK_append_of P _ _ hcons ih2 ?_
            intro u v hu hv
            have hv' : v = '\n' := by injection hv with hv'; exact hv'.symm
            subst hv'
            cases hl : l with
            | nil =>
                rw [hl] at hu
                have hu' : u = '\n' := by injection hu with hu'; exact hu'.symm
                subst hu'
                exact hPnl
            | cons b t =>
                rw [hl, getLast_cons_of_ne '\n' (b :: t) (by simp)] at hu
                exact hL l (by simp) u (by rw [hl]; exact hu)

theorem splitLines_first (r : List Char) :
    ∀ L Ls, splitLines r = L :: Ls →
      ∃ post, r = L ++ post ∧ (post = [] ∨ post.head? = some '\n') := by
  induction r with
  | nil =>
      intro L Ls h
      rw [splitLines] at h
      cases h
      exact ⟨[], rfl, Or.inl rfl⟩
  | cons c rest ih =>
      intro L Ls h
      rw [splitLines] at h
      by_cases hc : c = '\n'
      · rw [if_pos hc] at h
        cases h
        exact ⟨c :: rest, rfl, Or.inr (by rw [hc]; rfl)⟩
      · rw [if_neg hc] at h
        cases hs : splitLines rest with
        | nil => exact absurd hs (splitLines_ne_nil rest)
        | cons L1 Ls1 =>
            rw [hs, consHead] at h
            cases h
            obtain ⟨post, hpost, hhead⟩ := ih L1 _ hs
            exact ⟨post, by rw [List.cons_append, ← hpost], hhead⟩

theorem splitLines_decomp_tail (r : List Char) :
    ∀ l ∈ (splitLines r).tail, ∃ pre post, r = pre ++ l ++ post ∧
      pre.getLast? = some '\n' ∧ (post = [] ∨ post.head? = some '\n') := by
  induction r with
  | nil =>
      intro l hl
      rw [splitLines] at hl
      cases hl
  | cons c rest ih =>
      intro l hl
      rw [splitLines] at hl
      by_cases hc : c = '\n'
      · rw [if_pos hc] at hl
        simp only [List.tail_cons] at hl
        cases hs : splitLines rest with
        | nil => exact absurd hs (splitLines_ne_nil rest)
        | cons L1 Ls1 =>
            rw [hs] at hl
            rcases List.mem_cons.mp hl with heq | hl
            · obtain ⟨post, hpost, hhead⟩ := splitLines_first rest L1 Ls1 hs
              refine ⟨[c], post, by rw [heq, hpost]; rfl, by rw [hc]; rfl,
                hhead⟩
            · obtain ⟨pre, post, hr, hlast, hhead⟩ :=
                ih l (by rw [hs]; exact hl)
              refine ⟨c :: pre, post, by rw [hr]; rfl, ?_, hhead⟩
              have hpre : pre ≠ [] := by
                intro hx
                rw [hx] at hlast
                cases hlast
              rw [getLast_cons_of_ne c pre hpre]
              exact hlast
      · rw [if_neg hc] at hl
        cases hs : splitLines rest with
        | nil => exact absurd hs (splitLines_ne_nil rest)
        | cons L1 Ls1 =>
            rw [hs, consHead, List.tail_cons] at hl
            obtain ⟨pre, post, hr, hlast, hhead⟩ :=
              ih l (by rw [hs]; exact hl)
            refine ⟨c :: pre, post, by rw [hr]; rfl, ?_, hhead⟩
            have hpre : pre ≠ [] := by
              intro hx
              rw [hx] at hlast
              cases hlast
            rw [getLast_cons_of_ne c pre hpre]
            exact hlast

/-! ## Line conditions inside a normalized text -/

theorem cleanLine_nil : cleanLine [] = [] := by
  rw [cleanLine, stripL_nil, collapse_nil]

theorem cleanLine_no_nl (l : List Char) (h : '\n' ∉ l) :
    '\n' ∉ cleanLine l := by
  intro hm
  rcases collapse_mem _ _ hm with he | he
  · cases he
  · exact h (stripL_mem l '\n' he)

theorem cleanLine_head_not_ws (l : List Char) (a : Char)
    (h : (cleanLine l).head? = some a) : pyWs a = false := by
  rw [cleanLine] at h
  cases hs : stripL l with
  | nil => rw [hs, collapse_nil] at h; cases h
  | cons c r =>
      have hc : pyWs c = false := stripL_head_not_ws l c (by rw [hs]; rfl)
      have hcb : isBlankTab c = false := by
        cases hb : isBlankTab c
        · rfl
        · rw [blankTab_pyWs c hb] at hc; cases hc
      rw [hs, collapse_head (c :: r) c rfl hcb] at h
      injection h with h
      rw [← h]
      exact hc

theorem cleanLine_last_not_ws (l : List Char) (a : Char)
    (h : (cleanLine l).getLast? = some a) : pyWs a = false := by
  rw [cleanLine] at h
  cases hs : stripL l with
  | nil => rw [hs, collapse_nil] at h; cases h
  | cons c r =>
      obtain ⟨b, hb⟩ : ∃ b, (stripL l).getLast? = some b := by
        rw [hs]
        cases hr : (c :: r).getLast? with
        | none => simp at hr
        | some b => exact ⟨b, rfl⟩
      have hbw : pyWs b = false := stripL_getLast_not_ws l b hb
      have hbb : isBlankTab b = false := by
        cases hx : isBlankTab b
        · rfl
        · rw [blankTab_pyWs b hx] at hbw; cases hbw
      rw [collapse_getLast (stripL l) b hb hbb] at h
      injection h with h
      rw [← h]
      exact hbw

theorem line_conditions (r l pre post : List Char)
    (hr : r = pre ++ l ++ post) (hstrip : stripL r = r)
    (hgn : chainOK goodNl r = true) (hnl : '\n' ∉ l)
    (hpre : pre = [] ∨ pre.getLast? = some '\n')
    (hpost : post = [] ∨ post.head? = some '\n') :
    (∀ a, l.head? = some a → pyWs a = false) ∧
      (∀ a, l.getLast? = some a → pyWs a = false) := by
  constructor
  · intro a ha
    have hal : a ∈ l := List.mem_of_mem_head? (by rw [ha]; rfl)
    have hanl : ¬ a = '\n' := fun hx => hnl (hx ▸ hal)
    obtain ⟨t, rfl⟩ : ∃ t, l = a :: t := by
      cases l with
      | nil => cases ha
      | cons x t => injection ha with ha; exact ⟨t, by rw [ha]⟩
    rcases hpre with rfl | hpre
    · refine stripL_head_not_ws r a ?_
      rw [hstrip, hr]
      rfl
    · obtain ⟨u, rfl⟩ := List.getLast?_eq_some_iff.mp hpre
      have hpair : goodNl '\n' a = true := by
        refine chainOK_pair goodNl r u (t ++ post) '\n' a hgn ?_
        rw [hr]
        simp
      exact goodNl_left_elim a hpair hanl
  · intro a ha
    obtain ⟨u, rfl⟩ := List.getLast?_eq_some_iff.mp ha
    have hal : a ∈ u ++ [a] := by simp
    have hanl : ¬ a = '\n' := fun hx => hnl (hx ▸ hal)
    rcases hpost with rfl | hpost
    · refine stripL_getLast_not_ws r a ?_
      rw [hstrip, hr]
      simp
    · obtain ⟨post', rfl⟩ : ∃ post', post = '\n' :: post' := by
        cases post with
        | nil => cases hpost
        | cons x post' =>
            injection hpost with hx
            exact ⟨post', by rw [hx]⟩
      have hpair : goodNl a '\n' = true := by
        refine chainOK_pair goodNl r (pre ++ u) post' a '\n' hgn ?_
        rw [hr]
        simp
      exact goodNl_right_elim a hpair hanl

theorem cleanLine_id_of (l : List Char) (htab : '\t' ∉ l)
    (hnd : chainOK noDouble l = true)
    (hh : ∀ a, l.head? = some a → pyWs a = false)
    (hlast : ∀ a, l.getLast? = some a → pyWs a = false) :
    cleanLine l = l := by
  have hstrip : stripL l = l := stripL_of_ends l hh hlast
  rw [cleanLine, hstrip]
  exact collapse_id l htab hnd

theorem clean_lines_fixed (r : List Char) (hstrip : stripL r = r)
    (htab : '\t' ∉ r) (hnd : chainOK noDouble r = true)
    (hgn : chainOK goodNl r = true) :
    ∀ l ∈ splitLines r, cleanLine l = l := by
  intro l hl
  obtain ⟨pre, post, hr, hpre, hpost⟩ : ∃ pre post,
      r = pre ++ l ++ post ∧ (pre = [] ∨ pre.getLast? = some '\n') ∧
        (post = [] ∨ post.head? = some '\n') := by
    cases hsp : splitLines r with
    | nil => exact absurd hsp (splitLines_ne_nil r)
    | cons L Ls =>
        rw [hsp] at hl
        rcases List.mem_cons.mp hl with heq | hmem
        · obtain ⟨post, hpost, hh⟩ := splitLines_first r L Ls hsp
          exact ⟨[], post, by rw [List.nil_append, heq]; exact hpost,
            Or.inl rfl, hh⟩
        · obtain ⟨pre, post, h1, h2, h3⟩ :=
            splitLines_decomp_tail r l (by rw [hsp]; exact hmem)
          exact ⟨pre, post, h1, Or.inr h2, h3⟩
  have hnll : '\n' ∉ l := splitLines_no_nl r l hl
  have htabl : '\t' ∉ l := fun hm => htab (by rw [hr]; simp [hm])
  have hndl : chainOK noDouble l = true := by
    have h1 := chainOK_right noDouble pre (l ++ post)
      (by rw [← List.append_assoc, ← hr]; exact hnd)
    exact chainOK_left noDouble l post h1
  obtain ⟨hh, hl2⟩ :=
    line_conditions r l pre post hr hstrip hgn hnll hpre hpost
  exact cleanLine_id_of l htabl hndl hh hl2

/-- Characterization of `clean_text` output: stripped, line-normal,
quote-normal, and with newline runs capped at two. -/
def CleanNorm (r : List Char) : Prop :=
  stripL r = r ∧ (splitLines r).map cleanLine = splitLines r ∧
    r.map normQuote = r ∧ squeezeNl r = r

theorem clean_text_fixed (r : List Char) (h : CleanNorm r) :
    clean_text r = r := by
  obtain ⟨h1, h2, h3, h4⟩ := h
  by_cases hr : r = []
  · rw [hr]
    rfl
  · rw [clean_text, if_neg hr, h2, joinLines_splitLines, h3, h4, h1]

theorem clean_text_norm (s : List Char) : CleanNorm (clean_text s) := by
  by_cases hs : s = []
  · subst hs
    rw [show clean_text [] = [] from rfl]
    refine ⟨rfl, ?_, rfl, ?_⟩
    · rw [show splitLines [] = [[]] from rfl]
      simp [cleanLine_nil]
    · simp [squeezeNl]
  · rw [clean_text, if_neg hs]
    have hclsfact : ∀ l ∈ (splitLines s).map cleanLine,
        '\n' ∉ l ∧ '\t' ∉ l ∧ chainOK noDouble l = true ∧
          chainOK goodNl l = true ∧
          (∀ a, l.getLast? = some a → pyWs a = false) ∧
          (∀ a, l.head? = some a → pyWs a = false) := by
      intro l hl
      rw [List.mem_map] at hl
      obtain ⟨l0, hl0, rfl⟩ := hl
      have hn : '\n' ∉ cleanLine l0 :=
        cleanLine_no_nl l0 (splitLines_no_nl s l0 hl0)
      exact ⟨hn, collapse_no_tab _, collapse_noDouble _,
        chainOK_goodNl_of_no_nl _ hn, cleanLine_last_not_ws l0,
        cleanLine_head_not_ws l0⟩
    have hynd : chainOK noDouble
        (joinLines ((splitLines s).map cleanLine)) = true :=
      (chainOK_joinLines noDouble (by decide) _
        (fun l hl => (hclsfact l hl).2.2.1)
        (fun l _ a _ => noDouble_nl_right a)
        (fun l _ a _ => noDouble_nl_left a)).1
    have hygn : chainOK goodNl
        (joinLines ((splitLines s).map cleanLine)) = true :=
      (chainOK_joinLines goodNl goodNl_nl_nl _
        (fun l hl => (hclsfact l hl).2.2.2.1)
        (fun l hl a ha => goodNl_right_of a ((hclsfact l hl).2.2.2.2.1 a ha))
        (fun l hl a ha =>
          goodNl_left_of a ((hclsfact l hl).2.2.2.2.2 a ha))).1
    have hytab : '\t' ∉ joinLines ((splitLines s).map cleanLine) := by
      intro hm
      rcases mem_joinLines _ _ hm with he | ⟨l, hl, hcl⟩
      · cases he
      · exact (hclsfact l hl).2.1 hcl
    set q := (joinLines ((splitLines s).map cleanLine)).map normQuote with hq
    have hqnd : chainOK noDouble q = true := by
      rw [hq, chainOK_map noDouble normQuote noDouble_normQuote]
      exact hynd
    have hqgn : chainOK goodNl q = true := by
      rw [hq, chainOK_map goodNl normQuote goodNl_normQuote]
      exact hygn
    have hqtab : '\t' ∉ q := by
      intro hm
      rw [hq, List.mem_map] at hm
      obtain ⟨c0, hc0, hcq⟩ := hm
      rw [tab_normQuote c0 hcq] at hc0
      exact hytab hc0
    have hqquote : ∀ c ∈ q, normQuote c = c := by
      intro c hc
      rw [hq, List.mem_map] at hc
      obtain ⟨c0, _, rfl⟩ := hc
      exact normQuote_idem c0
    refine ⟨stripL_idem _, ?_, ?_, ?_⟩
    · have htabr : '\t' ∉ stripL (squeezeNl q) := by
        intro hm
        exact hqtab (squeezeNl_mem q '\t' (stripL_mem _ '\t' hm))
      have hndr : chainOK noDouble (stripL (squeezeNl q)) = true :=
        chainOK_strip noDouble _
          (chainOK_squeeze noDouble (by decide) q hqnd)
      have hgnr : chainOK goodNl (stripL (squeezeNl q)) = true :=
        chainOK_strip goodNl _
          (chainOK_squeeze goodNl goodNl_nl_nl q hqgn)
      have h := clean_lines_fixed (stripL (squeezeNl q)) (stripL_idem _)
        htabr hndr hgnr
      conv_rhs => rw [← List.map_id (splitLines (stripL (squeezeNl q)))]
      exact List.map_congr_left h
    · have h : ∀ c ∈ stripL (squeezeNl q), normQuote c = c := by
        intro c hc
        exact hqquote c (squeezeNl_mem q c (stripL_mem _ c hc))
      conv_rhs => rw [← List.map_id (stripL (squeezeNl q))]
      exact List.map_congr_left h
    · exact no_triple_squeeze_id _
        (hasNl3_strip _ (squeeze_no_triple q))

/-- C7: the normalization `clean_text` is idempotent, and maps the empty
string to the empty string. -/
theorem c7_clean_text_idempotent (x : List Char) :
    clean_text (clean_text x) = clean_text x ∧ clean_text [] = [] :=
  ⟨clean_text_fixed (clean_text x) (clean_text_norm x), rfl⟩
